import Mathlib

/-!
QXmindParser: a shallow embedding of `src/main.cpp`.

The program reads the second line of an XMind archive, trims it with two
regular-expression replacements (`chopJsonDoc`), parses the remainder as JSON,
keeps only the object keys listed in `cfg::captured` (`processNodeRecursively`)
and writes the indented result to `./parsed.json`.

The Qt library types used by the source are modelled as follows.

* `QString` is a `List Char`; object keys are `String`.
* `QJsonValue` is a closed tagged union; `QJsonObject` is an association list
  whose `insert` replaces the value of an existing key and appends a new key.
* `QRegularExpression` is a little backtracking matcher covering the
  constructs that occur in the two patterns of `chopJsonDoc`.
* The JSON parser, the serializer and the file system are parameters of the
  driver (`Env`), and the effects of a run are recorded in a `Sys` record.
-/

namespace XmindParser

/-! ## The JSON value model -/

/-- Modelled from the spec: the library type `QJsonValue`, a tagged union with the
variants null, bool, number, string, array and object. -/
inductive QJsonValue where
  | null
  | bool (b : Bool)
  | double (d : Float)
  | string (s : String)
  | array (items : List QJsonValue)
  | object (members : List (String × QJsonValue))

/-- Modelled from the spec: the library type `QJsonObject`, an ordered mapping from
keys to values, listed in iteration order. -/
abbrev QJsonObject := List (String × QJsonValue)

/-- Modelled from the spec: the library type `QJsonArray`, an ordered sequence of values. -/
abbrev QJsonArray := List QJsonValue

/-- Modelled from the spec: `QJsonObject::insert(key, value)`. Keys are unique, so an
existing key gets the new value in place; a new key is added at the end of the
iteration order. (Qt keeps the members sorted by key; the loop of the filter visits the
keys in iteration order, so there too each new key comes after the ones inserted before.) -/
def QJsonObject.insert : QJsonObject → String → QJsonValue → QJsonObject
  | [], key, value => [(key, value)]
  | (k, v) :: rest, key, value =>
    if k = key then (key, value) :: rest else (k, v) :: QJsonObject.insert rest key value

/-- The keys of an object, in iteration order. -/
def QJsonObject.keys (obj : QJsonObject) : List String := obj.map Prod.fst

/-- Modelled from the spec: `QJsonObject::remove(key)`, the object without its entry for `key`. -/
def QJsonObject.remove (obj : QJsonObject) (key : String) : QJsonObject :=
  obj.filter (fun kv => !(kv.1 == key))

/-- The constant `cfg::captured`: the set of JSON fields kept by the filter. -/
def cfg.captured : List String := ["rootTopic", "attached", "title", "children"]

/-! ## The field filter (`main.cpp`, lines 116-143) -/

mutual
/-- The function `processNodeRecursively`: an object is rebuilt from its captured keys,
an array is rebuilt element by element, anything else is returned as it is. -/
def processNodeRecursively : QJsonValue → QJsonValue
  | .object obj => .object (processObjectLoop obj [])
  | .array array => .array (processArrayLoop array [])
  | value => value
/-- The `for` loop over the members of `obj` (lines 121-126); the second argument is `newObj`. -/
def processObjectLoop : List (String × QJsonValue) → QJsonObject → QJsonObject
  | [], newObj => newObj
  | (key, value) :: rest, newObj =>
    if cfg.captured.contains key then
      processObjectLoop rest (QJsonObject.insert newObj key (processNodeRecursively value))
    else
      processObjectLoop rest newObj
/-- The `for` loop over the items of `array` (lines 134-136); the second argument is `newArray`. -/
def processArrayLoop : List QJsonValue → QJsonArray → QJsonArray
  | [], newArray => newArray
  | item :: rest, newArray =>
    processArrayLoop rest (newArray ++ [processNodeRecursively item])
end

/-- Every object that occurs in a value: the value itself when it is an object, and the
objects that occur in its members or items, at any depth. -/
def objectsIn : QJsonValue → List QJsonObject
  | .object members => members :: objectsInMembers members
  | .array items => objectsInItems items
  | _ => []
where
  /-- The objects occurring in the values of a member list. -/
  objectsInMembers : List (String × QJsonValue) → List QJsonObject
    | [] => []
    | (_, v) :: rest => objectsIn v ++ objectsInMembers rest
  /-- The objects occurring in the items of an array. -/
  objectsInItems : List QJsonValue → List QJsonObject
    | [] => []
    | v :: rest => objectsIn v ++ objectsInItems rest

/-- The entry that the filter makes of a retained member. -/
def filterEntry (kv : String × QJsonValue) : String × QJsonValue :=
  (kv.1, processNodeRecursively kv.2)

/-- The members of an object whose key is captured. -/
def retained (obj : QJsonObject) : QJsonObject :=
  obj.filter (fun kv => cfg.captured.contains kv.1)

/-! ## Regular expressions (`QRegularExpression`, as far as `chopJsonDoc` uses it) -/

/-- One item of a pattern: the anchors `^` and `$`, a single character of a class,
and a class under the greedy quantifiers `*` and `+`. -/
inductive Atom where
  | bol
  | eol
  | one (p : Char → Bool)
  | star (p : Char → Bool)
  | plus (p : Char → Bool)

/-- The class of `.`: any character except a line feed. -/
def dot (c : Char) : Bool := c != '\n'

/-- A literal character. -/
def chr (c : Char) : Atom := .one (fun x => x == c)

/-- A literal string, character by character. -/
def lits (s : List Char) : List Atom := s.map chr

/-- Greedy iteration of a class: take as many characters as possible, and give one back
at a time for as long as the rest of the pattern, `k`, fails. The flag says whether the
position is still the start of the subject. -/
def starLoop (p : Char → Bool) (k : Bool → List Char → Option (List Char)) :
    Bool → List Char → Option (List Char)
  | st, [] => k st []
  | st, x :: xs =>
    if p x then
      match starLoop p k false xs with
      | some r => some r
      | none => k st (x :: xs)
    else k st (x :: xs)

/-- Match a pattern at the current position of the subject, in the order a backtracking
matcher tries the alternatives; the result is the text left after the match. The flag says
whether the position is the start of the subject. Without the multiline option `^` holds
at the start of the subject only, and `$` at its end or before a final line feed. -/
def matchHere : List Atom → Bool → List Char → Option (List Char)
  | [], _, s => some s
  | .bol :: ps, st, s => if st then matchHere ps st s else none
  | .eol :: ps, st, s => if s = [] ∨ s = ['\n'] then matchHere ps st s else none
  | .one p :: ps, _, x :: xs => if p x then matchHere ps false xs else none
  | .one _ :: _, _, [] => none
  | .star p :: ps, st, s => starLoop p (matchHere ps) st s
  | .plus p :: ps, _, x :: xs => if p x then starLoop p (matchHere ps) false xs else none
  | .plus _ :: _, _, [] => none

/-- The scan behind `QString::replace(re, after)`: walk through the subject, try the
pattern at every position that is not inside the previous match, put `after` in the
place of each match and copy everything else. `skip` counts the characters of the
current match that are still to be passed over. -/
def replaceFrom (re : List Atom) (after : List Char) : List Char → Bool → Nat → List Char
  | [], st, skip =>
    if skip = 0 then
      match matchHere re st [] with
      | some _ => after
      | none => []
    else []
  | x :: xs, st, 0 =>
    match matchHere re st (x :: xs) with
    | some rest =>
      if (x :: xs).length - rest.length = 0 then
        after ++ x :: replaceFrom re after xs false 0
      else
        after ++ replaceFrom re after xs false ((x :: xs).length - rest.length - 1)
    | none => x :: replaceFrom re after xs false 0
  | _ :: xs, _, skip + 1 => replaceFrom re after xs false skip

/-- The call `s.replace(QRegularExpression(re), after)`: every match of `re` in `s`,
from left to right, is replaced by `after`. -/
def QString.replace (s : List Char) (re : List Atom) (after : List Char) : List Char :=
  replaceFrom re after s true 0

/-! ## Trimming the carrier line (`main.cpp`, lines 85-92) -/

/-- The marker that precedes the JSON text. -/
def marker : List Char := "content.json".toList

/-- The end of the JSON text followed by the archive signature. -/
def trailer : List Char := "\x7d\x7d]PK".toList

/-- The end of the JSON text, which replaces the trailer and what follows it. -/
def closing : List Char := "\x7d\x7d]".toList

/-- The pattern `^.*content\.json`. -/
def reMarker : List Atom := [.bol, .star dot] ++ lits marker

/-- The pattern `}}]PK.+$`. -/
def reTrailer : List Atom := lits trailer ++ [.plus dot, .eol]

/-- The function `chopJsonDoc`: two regular-expression replacements in a row. -/
def chopJsonDoc (rawJson : List Char) : List Char :=
  let rawJson := QString.replace rawJson reMarker []
  let rawJson := QString.replace rawJson reTrailer closing
  rawJson

/-- A text is a single line when it holds no line feed. -/
def singleLine (s : List Char) : Prop := ∀ c ∈ s, c ≠ '\n'

instance (s : List Char) : Decidable (singleLine s) :=
  inferInstanceAs (Decidable (∀ c ∈ s, c ≠ '\n'))

/-! ## The driver (`main.cpp`, lines 36-82 and 94-113, 146-183) -/

/-- Modelled from the spec: the library type `QJsonDocument`, which is empty or holds an
object or an array. -/
inductive QJsonDocument where
  | empty
  | ofObject (o : QJsonObject)
  | ofArray (a : QJsonArray)

/-- What a run depends on besides the program: the command line, the input file, the
JSON parser and serializer of the library, and whether `./parsed.json` can be opened. -/
structure Env where
  /-- The value of `argc`. -/
  argc : Nat
  /-- The result of `std::filesystem::is_regular_file(argv[1])`. -/
  isRegularFile : Bool
  /-- Whether the input file can be opened for reading. -/
  canRead : Bool
  /-- The lines of the input file, as `QTextStream::readLine` returns them. -/
  lines : List (List Char)
  /-- The parser `QJsonDocument::fromJson`; `none` stands for a parse error. -/
  fromJson : List Char → Option QJsonDocument
  /-- The serializer `QJsonDocument::toJson(QJsonDocument::Indented)`. -/
  toJson : QJsonDocument → List Char
  /-- Whether `./parsed.json` can be opened for writing. -/
  canWrite : Bool

/-- The functions of the program whose invocation is recorded. -/
inductive Call where
  | readXmindJsonDoc
  | chopJsonDoc
  | processNodes
  | writeToDisk
  deriving DecidableEq, Repr

/-- The observable state of a run: the content of `./parsed.json` (`none` when the file
does not exist) and the functions invoked so far, oldest first. -/
structure Sys where
  /-- The content of `./parsed.json`. -/
  parsed : Option (List Char)
  /-- The calls made so far. -/
  calls : List Call

/-- Record a call. -/
def Sys.call (s : Sys) (c : Call) : Sys := { s with calls := s.calls ++ [c] }

/-- The function `readXmindJsonDoc`: skip the first line, trim and return the second. -/
def readXmindJsonDoc (env : Env) (s : Sys) : Option (List Char) × Sys :=
  let s := s.call .readXmindJsonDoc
  if !env.canRead then (none, s)
  else
    -- `if (!in.atEnd()) in.readLine();`
    let rest := match env.lines with
      | [] => []
      | _ :: rest => rest
    -- `if (!in.atEnd()) { ret = in.readLine(); ... }`
    match rest with
    | ret :: _ => (some (chopJsonDoc ret), s.call .chopJsonDoc)
    | [] => (none, s)

/-- The function `processNodes`: filter the document and serialize the result. -/
def processNodes (env : Env) (jsonDoc : QJsonDocument) : List Char :=
  let ret : QJsonValue := match jsonDoc with
    | .ofObject o => processNodeRecursively (.object o)
    | .ofArray a => processNodeRecursively (.array a)
    | .empty => .null
  let doc : QJsonDocument := match ret with
    | .object o => .ofObject o
    | .array a => .ofArray a
    | _ => .empty
  env.toJson doc

/-- The function `writeToDisk`: `false` when `./parsed.json` cannot be opened for writing,
otherwise the file gets the text and the result is `true`. -/
def writeToDisk (env : Env) (str : List Char) (s : Sys) : Bool × Sys :=
  let s := s.call .writeToDisk
  if !env.canWrite then (false, s)
  else (true, { s with parsed := some str })

/-- The function `xmindParser`. The result of `writeToDisk` is not used (line 162). -/
def xmindParser (env : Env) (s : Sys) : Bool × Sys :=
  match readXmindJsonDoc env s with
  | (some result_str, s) =>
    match env.fromJson result_str with
    | none => (false, s)
    | some jsonDoc =>
      let parsed := processNodes env jsonDoc
      let s := s.call .processNodes
      let (_, s) := writeToDisk env parsed s
      (true, s)
  | (none, s) => (false, s)

/-- The function `main`; the result is the value returned to the system. -/
def main (env : Env) (s : Sys) : Int × Sys :=
  if env.argc < 2 then (-1, s)
  else if env.isRegularFile then
    match xmindParser env s with
    | (true, s) => (0, s)
    | (false, s) => (-1, s)
  else (-1, s)

/-- The exit status of a process that returns `r` from `main`: the low eight bits. -/
def exitStatus (r : Int) : Int := r % 256


/-! ## Sample runs -/

/-- The JSON text `{"title":"t","id":1}`. -/
def sampleJson : List Char := "\x7b\"title\":\"t\",\"id\":1\x7d".toList

/-- The indented JSON text of the object `{"title":"t"}`. -/
def sampleOutput : List Char := "\x7b\n    \"title\": \"t\"\n\x7d\n".toList

/-- A run on a two-line file whose second line is `xcontent.json{"title":"t","id":1}`; the
parser and the serializer are given by their values on the texts of this run. -/
def sampleEnv (canWrite : Bool) : Env where
  argc := 2
  isRegularFile := true
  canRead := true
  lines := ["PK".toList, "xcontent.json".toList ++ sampleJson]
  fromJson := fun s =>
    if s = sampleJson then some (.ofObject [("title", .string "t"), ("id", .double 1)])
    else none
  toJson := fun _ => sampleOutput
  canWrite := canWrite

/-- A run on a file that has the single line `PKcontent.json[]`. -/
def oneLineEnv : Env where
  argc := 2
  isRegularFile := true
  canRead := true
  lines := ["PKcontent.json[]".toList]
  fromJson := fun _ => some (.ofArray [])
  toJson := fun _ => "[]".toList
  canWrite := true

/-! ## The end-to-end scenario of the specification -/

/-- The JSON object of the scenario:
`{"rootTopic":{"title":"Root","id":"t1","children":{"attached":[{"title":"Child","color":"#fff"}]}}}`. -/
def scenarioObject : List Char :=
  "\x7b\"rootTopic\":\x7b\"title\":\"Root\",\"id\":\"t1\",\"children\":\x7b\"attached\":[\x7b\"title\":\"Child\",\"color\":\"#fff\"\x7d]\x7d\x7d\x7d".toList

/-- The payload text of the scenario: the JSON object followed by `}}]`. -/
def scenarioPayload : List Char := scenarioObject ++ closing

/-- The junk in front of the marker. -/
def scenarioJunk : List Char := "junk...".toList

/-- The trailer of the scenario after `PK`: the bytes 3 and 4 and `...`. -/
def scenarioRest : List Char := "\x03\x04...".toList

/-- The carrier line of the scenario: junk, marker, payload, `PK` and the rest of the trailer. -/
def scenarioLine : List Char :=
  scenarioJunk ++ marker ++ scenarioObject ++ trailer ++ scenarioRest

/-! ## The document parser -/

/-- The white space of JSON: space, tab, line feed and carriage return. -/
def isWs (c : Char) : Bool := c == ' ' || c == '\t' || c == '\n' || c == '\r'

/-- Drop leading white space. -/
def skipWs : List Char → List Char
  | [] => []
  | c :: cs => if isWs c then skipWs cs else c :: cs

/-- The value of a hexadecimal digit. -/
def hexVal (c : Char) : Option Nat :=
  if '0' ≤ c ∧ c ≤ '9' then some (c.toNat - 48)
  else if 'a' ≤ c ∧ c ≤ 'f' then some (c.toNat - 87)
  else if 'A' ≤ c ∧ c ≤ 'F' then some (c.toNat - 55)
  else none

/-- Modelled from the spec: the text of a JSON string after its opening quote, up to the
closing quote; the second argument holds the characters read so far, last first. Control
characters and unknown escapes are errors; `\uXXXX` gives the character with that code. -/
def parseString : List Char → List Char → Option (String × List Char)
  | [], _ => none
  | '"' :: r, acc => some (String.mk acc.reverse, r)
  | '\\' :: 'u' :: a :: b :: c :: d :: r, acc =>
    match hexVal a, hexVal b, hexVal c, hexVal d with
    | some x, some y, some z, some w =>
      parseString r (Char.ofNat (((x * 16 + y) * 16 + z) * 16 + w) :: acc)
    | _, _, _, _ => none
  | '\\' :: e :: r, acc =>
    if e = '"' then parseString r ('"' :: acc)
    else if e = '\\' then parseString r ('\\' :: acc)
    else if e = '/' then parseString r ('/' :: acc)
    else if e = 'b' then parseString r (Char.ofNat 8 :: acc)
    else if e = 'f' then parseString r (Char.ofNat 12 :: acc)
    else if e = 'n' then parseString r ('\n' :: acc)
    else if e = 'r' then parseString r ('\r' :: acc)
    else if e = 't' then parseString r ('\t' :: acc)
    else none
  | c :: r, acc => if c.toNat < 32 then none else parseString r (c :: acc)

/-- The leading decimal digits of a text, and what follows them. -/
def digitsOf : List Char → List Char × List Char
  | [] => ([], [])
  | c :: cs =>
    if '0' ≤ c ∧ c ≤ '9' then ((digitsOf cs).1.cons c, (digitsOf cs).2) else ([], c :: cs)

/-- The number written by a list of decimal digits. -/
def natOfDigits (ds : List Char) : Nat := ds.foldl (fun n c => 10 * n + (c.toNat - 48)) 0

/-- Modelled from the spec: a JSON number, `-? int frac? exp?`, read as a double. -/
def parseNumber (s : List Char) : Option (Float × List Char) :=
  let neg : Bool := s.head? = some '-'
  let s1 := if neg then s.tail else s
  let (intDs, s2) := digitsOf s1
  if intDs = [] ∨ (intDs.head? = some '0' ∧ intDs.length ≠ 1) then none
  else
    let frac : Option (List Char × List Char) :=
      match s2 with
      | '.' :: r => if (digitsOf r).1 = [] then none else some (digitsOf r)
      | _ => some ([], s2)
    match frac with
    | none => none
    | some (fracDs, s3) =>
      let exp : Option (Int × List Char) :=
        match s3 with
        | 'e' :: '-' :: r | 'E' :: '-' :: r =>
          if (digitsOf r).1 = [] then none
          else some (-(natOfDigits (digitsOf r).1 : Int), (digitsOf r).2)
        | 'e' :: '+' :: r | 'E' :: '+' :: r =>
          if (digitsOf r).1 = [] then none
          else some ((natOfDigits (digitsOf r).1 : Int), (digitsOf r).2)
        | 'e' :: r | 'E' :: r =>
          if (digitsOf r).1 = [] then none
          else some ((natOfDigits (digitsOf r).1 : Int), (digitsOf r).2)
        | _ => some (0, s3)
      match exp with
      | none => none
      | some (e, s4) =>
        let e10 : Int := e - fracDs.length
        let m : Float := OfScientific.ofScientific (natOfDigits (intDs ++ fracDs)) (e10 < 0)
          e10.natAbs
        some (if neg then -m else m, s4)

mutual
/-- Modelled from the spec: one JSON value at the start of the text, and the text left
after it. The first argument bounds the number of nested calls. -/
def parseValue : Nat → List Char → Option (QJsonValue × List Char)
  | 0, _ => none
  | n + 1, s =>
    match s with
    | '\x7b' :: r =>
      match skipWs r with
      | '\x7d' :: r2 => some (.object [], r2)
      | r2 =>
        match parseMembers n r2 [] with
        | some (o, r3) => some (.object o, r3)
        | none => none
    | '[' :: r =>
      match skipWs r with
      | ']' :: r2 => some (.array [], r2)
      | r2 =>
        match parseElements n r2 [] with
        | some (a, r3) => some (.array a, r3)
        | none => none
    | '"' :: r =>
      match parseString r [] with
      | some (str, r2) => some (.string str, r2)
      | none => none
    | 't' :: 'r' :: 'u' :: 'e' :: r => some (.bool true, r)
    | 'f' :: 'a' :: 'l' :: 's' :: 'e' :: r => some (.bool false, r)
    | 'n' :: 'u' :: 'l' :: 'l' :: r => some (.null, r)
    | _ =>
      match parseNumber s with
      | some (d, r) => some (.double d, r)
      | none => none
/-- Modelled from the spec: the items of an array up to its `]`, separated by commas; the
third argument holds the items read so far. -/
def parseElements : Nat → List Char → QJsonArray → Option (QJsonArray × List Char)
  | 0, _, _ => none
  | n + 1, s, acc =>
    match parseValue n s with
    | none => none
    | some (v, r) =>
      match skipWs r with
      | ',' :: r2 => parseElements n (skipWs r2) (acc ++ [v])
      | ']' :: r2 => some (acc ++ [v], r2)
      | _ => none
/-- Modelled from the spec: the members of an object up to its closing brace, separated by
commas; the third argument holds the members read so far. -/
def parseMembers : Nat → List Char → QJsonObject → Option (QJsonObject × List Char)
  | 0, _, _ => none
  | n + 1, s, acc =>
    match s with
    | '"' :: r =>
      match parseString r [] with
      | none => none
      | some (key, r1) =>
        match skipWs r1 with
        | ':' :: r2 =>
          match parseValue n (skipWs r2) with
          | none => none
          | some (v, r3) =>
            match skipWs r3 with
            | ',' :: r4 => parseMembers n (skipWs r4) (acc.insert key v)
            | '\x7d' :: r4 => some (acc.insert key v, r4)
            | _ => none
        | _ => none
    | _ => none
end

/-- Modelled from the spec: the Document Parser, `QJsonDocument::fromJson`. The text must
be one JSON object or array, with white space around it at most; anything else, text
after the value included, is a parse error (`none`). Two nested calls per character are
enough for every text, so the bound on the calls never cuts a parse short. -/
def fromJson (s : List Char) : Option QJsonDocument :=
  match parseValue (2 * s.length + 2) (skipWs s) with
  | some (.object o, r) => if skipWs r = [] then some (.ofObject o) else none
  | some (.array a, r) => if skipWs r = [] then some (.ofArray a) else none
  | _ => none

/-- The value of the JSON object of the scenario. -/
def scenarioValue : QJsonObject :=
  [("rootTopic", .object [("title", .string "Root"), ("id", .string "t1"),
    ("children", .object [("attached", .array [.object [("title", .string "Child"),
      ("color", .string "#fff")]])])])]

/-- The filtered value of the scenario:
`{"rootTopic":{"title":"Root","children":{"attached":[{"title":"Child"}]}}}`. -/
def scenarioFiltered : QJsonObject :=
  [("rootTopic", .object [("title", .string "Root"),
    ("children", .object [("attached", .array [.object [("title", .string "Child")]])])])]

/-- A run on a two-line file whose second line, `xcontent.json[{"title":`, breaks off in
the middle of an object; the parser is the document parser above. -/
def malformedEnv : Env where
  argc := 2
  isRegularFile := true
  canRead := true
  lines := ["PK".toList, "xcontent.json[\x7b\"title\":".toList]
  fromJson := fromJson
  toJson := fun _ => []
  canWrite := true

/-! ## Access paths -/

/-- One step of an access path: a key of an object or an index of an array. -/
inductive Step where
  | key (k : String)
  | index (i : Nat)

/-- Modelled from the spec: `QJsonObject::value(key)`, the value stored under `key`, if any. -/
def QJsonObject.value : QJsonObject → String → Option QJsonValue
  | [], _ => none
  | (k, v) :: rest, key => if k = key then some v else QJsonObject.value rest key

/-- Follow an access path from a value: a key selects a member of an object, an index an
item of an array; the lookup fails when a step does not fit the value it meets. -/
def lookup : QJsonValue → List Step → Option QJsonValue
  | v, [] => some v
  | .object o, .key k :: p =>
    match QJsonObject.value o k with
    | some w => lookup w p
    | none => none
  | .array a, .index i :: p =>
    match a[i]? with
    | some w => lookup w p
    | none => none
  | _, _ :: _ => none

/-- Whether every object key on a path is a captured key. -/
def pathCaptured : List Step → Bool
  | [] => true
  | .key k :: p => cfg.captured.contains k && pathCaptured p
  | .index _ :: p => pathCaptured p

/-- The keys of every object in a value are unique, as they are in every `QJsonObject`. -/
def uniqueKeys (v : QJsonValue) : Prop := ∀ o ∈ objectsIn v, (QJsonObject.keys o).Nodup

/-- A tree built from captured keys, arrays and scalars:
`{"rootTopic":{"title":"t","children":{"attached":[{"title":"u"},5,null]}}}`. -/
def capturedTree : QJsonValue :=
  .object [("rootTopic", .object [("title", .string "t"),
    ("children", .object [("attached", .array [.object [("title", .string "u")],
      .double 5, .null])])])]

/-- The tree `{"rootTopic":{"id":7,"children":[{"title":"u","style":{"title":"v"}}]}}`. -/
def mixedTree : QJsonValue :=
  .object [("rootTopic", .object [("id", .double 7),
    ("children", .array [.object [("title", .string "u"),
      ("style", .object [("title", .string "v")])]])])]

/-! ## The filter with a bound on the depth of the recursion -/

/-- The nesting depth of a value: 0 for a scalar, one more than the deepest member or item
for an object or an array. -/
def depth : QJsonValue → Nat
  | .object members => depthMembers members + 1
  | .array items => depthItems items + 1
  | _ => 0
where
  /-- The depth of the deepest member value. -/
  depthMembers : List (String × QJsonValue) → Nat
    | [] => 0
    | (_, v) :: rest => max (depth v) (depthMembers rest)
  /-- The depth of the deepest item. -/
  depthItems : List QJsonValue → Nat
    | [] => 0
    | v :: rest => max (depth v) (depthItems rest)

/-- The `for` loop over the members of `obj` (lines 121-126), with `call` for the recursive
call, which may fail to return. -/
def objectLoopWith (call : QJsonValue → Option QJsonValue) :
    List (String × QJsonValue) → QJsonObject → Option QJsonObject
  | [], newObj => some newObj
  | (key, value) :: rest, newObj =>
    if cfg.captured.contains key then
      match call value with
      | some w => objectLoopWith call rest (QJsonObject.insert newObj key w)
      | none => none
    else
      objectLoopWith call rest newObj

/-- The `for` loop over the items of `array` (lines 134-136), with `call` for the recursive
call, which may fail to return. -/
def arrayLoopWith (call : QJsonValue → Option QJsonValue) :
    List QJsonValue → QJsonArray → Option QJsonArray
  | [], newArray => some newArray
  | item :: rest, newArray =>
    match call item with
    | some w => arrayLoopWith call rest (newArray ++ [w])
    | none => none

/-- The function `processNodeRecursively` run with at most `n` nested calls: `none` when a
call would go deeper than that, without any assumption that the recursion ends. -/
def processNodeBounded : Nat → QJsonValue → Option QJsonValue
  | 0, _ => none
  | n + 1, .object obj =>
    match objectLoopWith (processNodeBounded n) obj [] with
    | some newObj => some (.object newObj)
    | none => none
  | n + 1, .array array =>
    match arrayLoopWith (processNodeBounded n) array [] with
    | some newArray => some (.array newArray)
    | none => none
  | _ + 1, value => some value

/-! ## Lemmas about the value model -/

/-- Induction over values, with the induction hypothesis for every item of an array and
every member value of an object. -/
theorem QJsonValue.induct {P : QJsonValue → Prop}
    (hnull : P .null) (hbool : ∀ b, P (.bool b)) (hdouble : ∀ d, P (.double d))
    (hstring : ∀ s, P (.string s))
    (harray : ∀ items, (∀ v ∈ items, P v) → P (.array items))
    (hobject : ∀ members : List (String × QJsonValue), (∀ kv ∈ members, P kv.2) →
      P (.object members)) :
    ∀ v, P v := by
  intro v
  exact @QJsonValue.rec P (fun l => ∀ v ∈ l, P v) (fun l => ∀ kv ∈ l, P kv.2)
    (fun kv => P kv.2) hnull hbool hdouble hstring harray hobject
    (by intro v hv; cases hv)
    (by
      intro hd tl h1 h2 v hv
      rcases List.mem_cons.1 hv with rfl | hv
      · exact h1
      · exact h2 v hv)
    (by intro kv hkv; cases hkv)
    (by
      intro hd tl h1 h2 kv hkv
      rcases List.mem_cons.1 hkv with rfl | hkv
      · exact h1
      · exact h2 kv hkv)
    (by intro k v h; exact h) v

theorem processArrayLoop_eq (items : List QJsonValue) (newArray : QJsonArray) :
    processArrayLoop items newArray = newArray ++ items.map processNodeRecursively := by
  induction items generalizing newArray with
  | nil => simp [processArrayLoop]
  | cons item rest ih => simp [processArrayLoop, ih]

theorem insert_of_not_mem (obj : QJsonObject) (key : String) (value : QJsonValue)
    (h : key ∉ obj.keys) : obj.insert key value = obj ++ [(key, value)] := by
  induction obj with
  | nil => rfl
  | cons kv rest ih =>
    obtain ⟨k, v⟩ := kv
    simp only [QJsonObject.keys, List.map_cons, List.mem_cons, not_or] at h
    have hk : ¬ k = key := fun e => h.1 e.symm
    simp only [QJsonObject.insert, if_neg hk, List.cons_append]
    rw [ih h.2]

theorem mem_insert (obj : QJsonObject) (key : String) (value : QJsonValue)
    (kv : String × QJsonValue) (h : kv ∈ obj.insert key value) :
    kv ∈ obj ∨ kv = (key, value) := by
  induction obj with
  | nil => simp [QJsonObject.insert] at h; exact Or.inr h
  | cons hd rest ih =>
    obtain ⟨k, v⟩ := hd
    simp only [QJsonObject.insert] at h
    split at h
    · rcases List.mem_cons.1 h with h | h
      · exact Or.inr h
      · exact Or.inl (List.mem_cons_of_mem _ h)
    · rcases List.mem_cons.1 h with h | h
      · exact Or.inl (h ▸ List.mem_cons_self _ _)
      · rcases ih h with h | h
        · exact Or.inl (List.mem_cons_of_mem _ h)
        · exact Or.inr h

theorem keys_insert (obj : QJsonObject) (key : String) (value : QJsonValue) :
    (obj.insert key value).keys = if key ∈ obj.keys then obj.keys else obj.keys ++ [key] := by
  induction obj with
  | nil => simp [QJsonObject.insert, QJsonObject.keys]
  | cons hd rest ih =>
    obtain ⟨k, v⟩ := hd
    simp only [QJsonObject.insert]
    by_cases hk : k = key
    · subst hk
      simp [QJsonObject.keys]
    · have hk2 : ¬ key = k := fun e => hk e.symm
      simp only [QJsonObject.keys] at ih
      simp only [if_neg hk, QJsonObject.keys, List.map_cons, List.mem_cons, hk2, false_or, ih]
      split <;> simp

theorem nodup_keys_insert (obj : QJsonObject) (key : String) (value : QJsonValue)
    (h : obj.keys.Nodup) : (obj.insert key value).keys.Nodup := by
  rw [keys_insert]
  split
  · exact h
  · rename_i hk
    exact List.Nodup.append h (List.nodup_singleton _) (by simpa using hk)


theorem processObjectLoop_eq (obj : List (String × QJsonValue)) (newObj : QJsonObject)
    (h : (newObj.keys ++ (retained obj).keys).Nodup) :
    processObjectLoop obj newObj = newObj ++ (retained obj).map filterEntry := by
  induction obj generalizing newObj with
  | nil => simp [processObjectLoop, retained]
  | cons kv rest ih =>
    obtain ⟨k, v⟩ := kv
    by_cases hk : cfg.captured.contains k = true
    · have hr : retained ((k, v) :: rest) = (k, v) :: retained rest := by
        simp only [retained, List.filter_cons, hk, if_true]
      rw [hr] at h ⊢
      have hnot : k ∉ newObj.keys := by
        intro hmem
        have := List.nodup_append.1 h
        exact this.2.2 hmem (by simp [QJsonObject.keys])
      simp only [processObjectLoop, hk, if_true]
      rw [insert_of_not_mem _ _ _ hnot, ih]
      · simp [filterEntry]
      · simpa [QJsonObject.keys, List.append_assoc] using h
    · have hr : retained ((k, v) :: rest) = retained rest := by
        simp only [retained, List.filter_cons, hk]
        rfl
      rw [hr] at h ⊢
      simp only [processObjectLoop, hk]
      exact ih newObj h

theorem processObjectLoop_nodup (obj : List (String × QJsonValue)) (newObj : QJsonObject)
    (h : newObj.keys.Nodup) : (processObjectLoop obj newObj).keys.Nodup := by
  induction obj generalizing newObj with
  | nil => simpa [processObjectLoop] using h
  | cons kv rest ih =>
    obtain ⟨k, v⟩ := kv
    simp only [processObjectLoop]
    split
    · exact ih _ (nodup_keys_insert _ _ _ h)
    · exact ih _ h

theorem mem_processObjectLoop (obj : List (String × QJsonValue)) (newObj : QJsonObject)
    (kv : String × QJsonValue) (h : kv ∈ processObjectLoop obj newObj) :
    kv ∈ newObj ∨
      (cfg.captured.contains kv.1 = true ∧
        ∃ v, (kv.1, v) ∈ obj ∧ kv.2 = processNodeRecursively v) := by
  induction obj generalizing newObj with
  | nil => exact Or.inl (by simpa [processObjectLoop] using h)
  | cons hd rest ih =>
    obtain ⟨k, v⟩ := hd
    simp only [processObjectLoop] at h
    split at h
    · rename_i hk
      rcases ih _ h with h1 | ⟨h1, w, h2, h3⟩
      · rcases mem_insert _ _ _ _ h1 with h1 | h1
        · exact Or.inl h1
        · subst h1
          exact Or.inr ⟨hk, v, List.mem_cons_self _ _, rfl⟩
      · exact Or.inr ⟨h1, w, List.mem_cons_of_mem _ h2, h3⟩
    · rcases ih _ h with h1 | ⟨h1, w, h2, h3⟩
      · exact Or.inl h1
      · exact Or.inr ⟨h1, w, List.mem_cons_of_mem _ h2, h3⟩

theorem processObjectLoop_remove (obj : List (String × QJsonValue)) (newObj : QJsonObject)
    (key : String) (h : cfg.captured.contains key = false) :
    processObjectLoop (QJsonObject.remove obj key) newObj = processObjectLoop obj newObj := by
  induction obj generalizing newObj with
  | nil => rfl
  | cons hd rest ih =>
    obtain ⟨k, v⟩ := hd
    by_cases hk : k = key
    · subst hk
      have : QJsonObject.remove ((k, v) :: rest) k = QJsonObject.remove rest k := by
        simp [QJsonObject.remove]
      rw [this, ih]
      simp only [processObjectLoop, h]
      rfl
    · have : QJsonObject.remove ((k, v) :: rest) key = (k, v) :: QJsonObject.remove rest key := by
        simp [QJsonObject.remove, hk]
      rw [this]
      simp only [processObjectLoop]
      split
      · exact ih _
      · exact ih _

theorem mem_objectsInItems (items : List QJsonValue) (o : QJsonObject) :
    o ∈ objectsIn.objectsInItems items ↔ ∃ v ∈ items, o ∈ objectsIn v := by
  induction items with
  | nil => simp [objectsIn.objectsInItems]
  | cons v rest ih => simp [objectsIn.objectsInItems, ih]

theorem mem_objectsInMembers (members : List (String × QJsonValue)) (o : QJsonObject) :
    o ∈ objectsIn.objectsInMembers members ↔ ∃ kv ∈ members, o ∈ objectsIn kv.2 := by
  induction members with
  | nil => simp [objectsIn.objectsInMembers]
  | cons kv rest ih =>
    obtain ⟨k, v⟩ := kv
    simp [objectsIn.objectsInMembers, ih]

/-! ## The claims about the field filter -/

/-- C1: for an object `o` with unique keys, `processNodeRecursively o` is an object whose
entries are the pairs `(k, processNodeRecursively (o[k]))` for the captured keys `k` of `o`,
in the iteration order of `o`; no other key is present and no captured key is missing. -/
theorem C1_object_filter (o : QJsonObject) (huniq : o.keys.Nodup) :
    ∃ r : QJsonObject, processNodeRecursively (.object o) = .object r ∧
      r = (o.filter (fun kv => cfg.captured.contains kv.1)).map
          (fun kv => (kv.1, processNodeRecursively kv.2)) ∧
      ∀ k, k ∈ r.keys ↔ k ∈ o.keys ∧ k ∈ cfg.captured := by
  refine ⟨_, ?_, rfl, ?_⟩
  · have hsub : (retained o).keys.Nodup :=
      List.Nodup.sublist (List.Sublist.map _ (List.filter_sublist _)) huniq
    have := processObjectLoop_eq o [] (by simpa [QJsonObject.keys] using hsub)
    simp only [processNodeRecursively, this, List.nil_append]
    rfl
  · intro k
    simp only [QJsonObject.keys, List.mem_map, List.mem_filter, List.contains_iff_exists_mem_beq]
    constructor
    · rintro ⟨_, ⟨kv, ⟨h1, h2⟩, rfl⟩, rfl⟩
      refine ⟨⟨kv, h1, rfl⟩, ?_⟩
      obtain ⟨a, ha, hb⟩ := h2
      simpa [beq_iff_eq.1 hb] using ha
    · rintro ⟨⟨kv, h1, rfl⟩, h2⟩
      exact ⟨_, ⟨kv, ⟨h1, kv.1, h2, by simp⟩, rfl⟩, rfl⟩

/-- C1 at the object `{"id": 1, "title": "t", "note": null, "children": []}`, whose keys are
unique: the filter keeps `title` and `children`, in this order. -/
theorem C1_object_filter_witness :
    (QJsonObject.keys [("id", .double 1), ("title", .string "t"), ("note", .null),
        ("children", .array [])]).Nodup ∧
      ∃ r : QJsonObject,
        processNodeRecursively (.object [("id", .double 1), ("title", .string "t"),
          ("note", .null), ("children", .array [])]) = .object r ∧
        r = ([("id", QJsonValue.double 1), ("title", .string "t"), ("note", .null),
          ("children", .array [])].filter (fun kv => cfg.captured.contains kv.1)).map
            (fun kv => (kv.1, processNodeRecursively kv.2)) ∧
        ∀ k, k ∈ r.keys ↔
          k ∈ QJsonObject.keys [("id", .double 1), ("title", .string "t"), ("note", .null),
            ("children", .array [])] ∧ k ∈ cfg.captured :=
  ⟨by decide, C1_object_filter _ (by decide)⟩

/-- C2: for an array `a`, `processNodeRecursively a` is an array of the same length, and its
item `i` is `processNodeRecursively` of item `i` of `a`, for every index `i` of `a`; nothing
is dropped or reordered. -/
theorem C2_array_filter (a : QJsonArray) :
    ∃ b : QJsonArray, processNodeRecursively (.array a) = .array b ∧
      b.length = a.length ∧
      (∀ i, i < a.length → b[i]? = (a[i]?).map processNodeRecursively) ∧
      b = a.map processNodeRecursively := by
  refine ⟨a.map processNodeRecursively, ?_, by simp, ?_, rfl⟩
  · simp [processNodeRecursively, processArrayLoop_eq]
  · intro i _
    simp

/-- C3: the filter is idempotent on every value. -/
theorem C3_idempotent (v : QJsonValue) :
    processNodeRecursively (processNodeRecursively v) = processNodeRecursively v := by
  induction v using QJsonValue.induct with
  | hnull => rfl
  | hbool b => rfl
  | hdouble d => rfl
  | hstring s => rfl
  | harray items ih =>
    simp only [processNodeRecursively, processArrayLoop_eq, List.nil_append, List.map_map]
    congr 1
    exact List.map_congr_left (fun v hv => ih v hv)
  | hobject members ih =>
    have hnd : (processObjectLoop members []).keys.Nodup :=
      processObjectLoop_nodup members [] (by simp [QJsonObject.keys])
    have hret : retained (processObjectLoop members []) = processObjectLoop members [] := by
      apply List.filter_eq_self.2
      intro kv hkv
      rcases mem_processObjectLoop _ _ _ hkv with h | ⟨h, _⟩
      · cases h
      · exact h
    have hloop := processObjectLoop_eq (processObjectLoop members []) []
      (by rw [hret]; simpa [QJsonObject.keys] using hnd)
    simp only [processNodeRecursively, hloop, hret, List.nil_append]
    congr 1
    conv_rhs => rw [← List.map_id (processObjectLoop members [])]
    apply List.map_congr_left
    intro kv hkv
    rcases mem_processObjectLoop _ _ _ hkv with h | ⟨_, w, hw, hval⟩
    · cases h
    · obtain ⟨k, x⟩ := kv
      simp only [filterEntry, id]
      simp only at hval
      rw [hval]
      exact congrArg _ (ih (k, w) hw)

theorem objectsIn_filter_captured (v : QJsonValue) :
    ∀ o ∈ objectsIn (processNodeRecursively v), ∀ k ∈ o.keys,
      k ∈ ["rootTopic", "attached", "title", "children"] := by
  induction v using QJsonValue.induct with
  | hnull => intro o ho; simp [processNodeRecursively, objectsIn] at ho
  | hbool b => intro o ho; simp [processNodeRecursively, objectsIn] at ho
  | hdouble d => intro o ho; simp [processNodeRecursively, objectsIn] at ho
  | hstring s => intro o ho; simp [processNodeRecursively, objectsIn] at ho
  | harray items ih =>
    intro o ho
    simp only [processNodeRecursively, processArrayLoop_eq, List.nil_append, objectsIn,
      mem_objectsInItems, List.mem_map] at ho
    obtain ⟨_, ⟨v, hv, rfl⟩, ho⟩ := ho
    exact ih v hv o ho
  | hobject members ih =>
    intro o ho
    simp only [processNodeRecursively, objectsIn, List.mem_cons, mem_objectsInMembers] at ho
    rcases ho with rfl | ⟨kv, hkv, ho⟩
    · intro k hk
      simp only [QJsonObject.keys, List.mem_map] at hk
      obtain ⟨kv, hkv, rfl⟩ := hk
      rcases mem_processObjectLoop _ _ _ hkv with h | ⟨h, _⟩
      · cases h
      · simpa [cfg.captured] using h
    · rcases mem_processObjectLoop _ _ _ hkv with h | ⟨_, w, hw, hval⟩
      · cases h
      · rw [hval] at ho
        exact ih (kv.1, w) hw o ho

/-- C4: every object that occurs in `processNodeRecursively v`, at the root, as a member of
an object or as an item of an array, at any depth, has captured keys only. -/
theorem C4_keys_captured (v : QJsonValue) :
    ∀ o ∈ objectsIn (processNodeRecursively v), ∀ k ∈ o.keys,
      k ∈ ["rootTopic", "attached", "title", "children"] :=
  objectsIn_filter_captured v

/-- C4 at the array `[{"title":"x","id":1}]`: the object `{"title":"x"}` occurs in the
filtered value, and its key `title` is a captured key. -/
theorem C4_keys_captured_witness :
    ([("title", QJsonValue.string "x")] ∈ objectsIn (processNodeRecursively
        (.array [.object [("title", .string "x"), ("id", .double 1)]])) ∧
      "title" ∈ QJsonObject.keys [("title", .string "x")]) ∧
      "title" ∈ ["rootTopic", "attached", "title", "children"] :=
  ⟨⟨List.mem_cons_self _ _, by decide⟩,
    C4_keys_captured (.array [.object [("title", .string "x"), ("id", .double 1)]])
      [("title", .string "x")] (List.mem_cons_self _ _) "title" (by decide)⟩

/-- C5: a key `k` of an object `o` that is not captured has no entry in
`processNodeRecursively o`, and nothing of its subtree is kept: the result is the one for
`o` without the entry `k`, whatever the value under `k` holds. So
`{"style":{"title":"x"},"title":"y"}` filters to `{"title":"y"}`. -/
theorem C5_no_rescue (o : QJsonObject) (k : String) (hk : k ∈ o.keys)
    (hnot : k ∉ cfg.captured) :
    (∃ r : QJsonObject, processNodeRecursively (.object o) = .object r ∧ k ∉ r.keys) ∧
      processNodeRecursively (.object o) = processNodeRecursively (.object (o.remove k)) ∧
      processNodeRecursively (.object [("style", .object [("title", .string "x")]),
          ("title", .string "y")]) = .object [("title", .string "y")] := by
  have hc : cfg.captured.contains k = false := by simpa using hnot
  refine ⟨⟨_, rfl, ?_⟩, ?_, rfl⟩
  · intro hmem
    simp only [QJsonObject.keys, List.mem_map] at hmem
    obtain ⟨kv, hkv, rfl⟩ := hmem
    rcases mem_processObjectLoop _ _ _ hkv with h | ⟨h, _⟩
    · cases h
    · rw [hc] at h
      cases h
  · simp only [processNodeRecursively, processObjectLoop_remove _ _ _ hc]

/-- C5 at the object `{"style":{"title":"x"},"title":"y"}` and its key `style`. -/
theorem C5_no_rescue_witness :
    ("style" ∈ QJsonObject.keys [("style", .object [("title", .string "x")]),
        ("title", .string "y")] ∧ "style" ∉ cfg.captured) ∧
      processNodeRecursively (.object [("style", .object [("title", .string "x")]),
          ("title", .string "y")]) =
        processNodeRecursively (.object (QJsonObject.remove
          [("style", .object [("title", .string "x")]), ("title", .string "y")] "style")) :=
  ⟨⟨by decide, by decide⟩,
    (C5_no_rescue [("style", .object [("title", .string "x")]), ("title", .string "y")]
      "style" (by decide) (by decide)).2.1⟩


/-! ## Lemmas about matching and replacing -/

theorem matchHere_lits_append (m t : List Char) (ps : List Atom) (st : Bool) :
    matchHere (lits m ++ ps) st (m ++ t) = matchHere ps (st && m.isEmpty) t := by
  induction m generalizing st with
  | nil => simp [lits]
  | cons c m ih =>
    have := ih false
    simp only [lits] at this
    simp [lits, chr, matchHere, this]

theorem matchHere_lits_none (m s : List Char) (ps : List Atom) (st : Bool)
    (h : ¬ m <+: s) : matchHere (lits m ++ ps) st s = none := by
  induction m generalizing st s with
  | nil => exact absurd (List.nil_prefix) h
  | cons c m ih =>
    cases s with
    | nil => simp [lits, chr, matchHere]
    | cons x xs =>
      by_cases hx : x = c
      · subst hx
        have h2 : ¬ m <+: xs := fun h3 => h ((List.cons_prefix_cons).2 ⟨rfl, h3⟩)
        have := ih xs false h2
        simp only [lits] at this
        simp [lits, chr, matchHere, this]
      · simp [lits, chr, matchHere, hx]

theorem starLoop_append (p : Char → Bool) (k : Bool → List Char → Option (List Char))
    (a b r : List Char) (ha : ∀ c ∈ a, p c = true)
    (hb : ∀ st, starLoop p k st b = some r) (st : Bool) :
    starLoop p k st (a ++ b) = some r := by
  induction a generalizing st with
  | nil => exact hb st
  | cons x a ih =>
    have hx : p x = true := ha x (List.mem_cons_self _ _)
    have := ih (fun c hc => ha c (List.mem_cons_of_mem _ hc)) false
    simp [starLoop, hx, this]

theorem starLoop_none (p : Char → Bool) (k : Bool → List Char → Option (List Char))
    (s : List Char) (h : ∀ st u, u <:+ s → k st u = none) (st : Bool) :
    starLoop p k st s = none := by
  induction s generalizing st with
  | nil => simpa [starLoop] using h st [] (List.suffix_refl _)
  | cons x xs ih =>
    have h1 := ih (fun st u hu => h st u (hu.trans (List.suffix_cons _ _))) false
    have h2 := h st (x :: xs) (List.suffix_refl _)
    simp [starLoop, h1, h2]

theorem replaceFrom_skip (re : List Atom) (after a s : List Char) (st : Bool) :
    replaceFrom re after (a ++ s) st a.length =
      replaceFrom re after s (st && a.isEmpty) 0 := by
  induction a generalizing st with
  | nil => simp
  | cons x a ih => simpa [replaceFrom] using ih false

theorem replaceFrom_match (re : List Atom) (after a r : List Char) (st : Bool)
    (ha : a ≠ []) (h : matchHere re st (a ++ r) = some r) :
    replaceFrom re after (a ++ r) st 0 = after ++ replaceFrom re after r false 0 := by
  cases a with
  | nil => exact absurd rfl ha
  | cons x a =>
    have hlen : (x :: (a ++ r)).length - r.length = a.length + 1 := by
      simp only [List.length_cons, List.length_append]
      omega
    have hskip := replaceFrom_skip re after a r false
    simp only [Bool.false_and] at hskip
    simp only [List.cons_append] at h ⊢
    simp only [replaceFrom, h, hlen, Nat.add_one_ne_zero, if_false, Nat.add_sub_cancel, hskip]

theorem replaceFrom_none (re : List Atom) (after s : List Char) (st : Bool)
    (h : ∀ st u, u <:+ s → matchHere re st u = none) :
    replaceFrom re after s st 0 = s := by
  induction s generalizing st with
  | nil => simp [replaceFrom, h st [] (List.suffix_refl _)]
  | cons x xs ih =>
    have h1 := ih false (fun st u hu => h st u (hu.trans (List.suffix_cons _ _)))
    simp [replaceFrom, h st (x :: xs) (List.suffix_refl _), h1]

theorem replaceFrom_prefix (re : List Atom) (after a s : List Char) (st : Bool)
    (h : ∀ st a1 a2, a = a1 ++ a2 → a2 ≠ [] → matchHere re st (a2 ++ s) = none) :
    replaceFrom re after (a ++ s) st 0 =
      a ++ replaceFrom re after s (st && a.isEmpty) 0 := by
  induction a generalizing st with
  | nil => simp
  | cons x a ih =>
    have h1 := ih false (fun st a1 a2 e ne => h st (x :: a1) a2 (by simp [e]) ne)
    have h2 := h st [] (x :: a) rfl (by simp)
    simp only [List.cons_append] at h2 ⊢
    simp [replaceFrom, h2, h1]


theorem marker_eq : marker = ['c', 'o', 'n', 't', 'e', 'n', 't', '.', 'j', 's', 'o', 'n'] := rfl

theorem trailer_eq : trailer = ['}', '}', ']', 'P', 'K'] := rfl

theorem closing_eq : closing = ['}', '}', ']'] := rfl

theorem matchHere_reMarker_false (s : List Char) : matchHere reMarker false s = none := by
  simp [reMarker, matchHere]

theorem matchHere_marker_none (s : List Char) (st : Bool) (h : ¬ marker <+: s) :
    matchHere (lits marker) st s = none := by
  have := matchHere_lits_none marker s [] st h
  simpa using this

theorem starLoop_marker_none (s : List Char) (st : Bool) (h : ¬ marker <:+: s) :
    starLoop dot (matchHere (lits marker)) st s = none := by
  apply starLoop_none
  intro st u hu
  exact matchHere_marker_none u st (fun hp => h (hp.isInfix.trans hu.isInfix))

theorem matchHere_reMarker_none (s : List Char) (st : Bool) (h : ¬ marker <:+: s) :
    matchHere reMarker st s = none := by
  cases st with
  | false => exact matchHere_reMarker_false s
  | true =>
    have := starLoop_marker_none s true h
    simpa [reMarker, matchHere] using this

theorem starLoop_marker_last (t : List Char) (h : ¬ marker <:+: t) (st : Bool) :
    starLoop dot (matchHere (lits marker)) st (marker ++ t) = some t := by
  have h0 := starLoop_marker_none t false h
  have h1 : matchHere (lits marker) st (marker ++ t) = some t := by
    have := matchHere_lits_append marker t [] st
    simp only [List.append_nil] at this
    rw [this, matchHere]
  have hK : ∀ st c rest, c ≠ 'c' → matchHere (lits marker) st (c :: rest) = none := by
    intro st c rest hc
    simp [marker_eq, lits, chr, matchHere, hc]
  generalize matchHere (lits marker) = K at h0 h1 hK
  rw [marker_eq] at h1 ⊢
  simp only [List.cons_append, List.nil_append] at h1 ⊢
  simp [starLoop, h0, h1, hK, dot]

theorem matchHere_reMarker_last (pre t : List Char) (hpre : singleLine pre)
    (h : ¬ marker <:+: t) : matchHere reMarker true (pre ++ marker ++ t) = some t := by
  have := starLoop_append dot (matchHere (lits marker)) pre (marker ++ t) t
    (fun c hc => by simpa [dot] using hpre c hc) (starLoop_marker_last t h) true
  simpa [reMarker, matchHere] using this

theorem matchHere_reTrailer_none (s : List Char) (st : Bool) (h : ¬ trailer <+: s) :
    matchHere reTrailer st s = none :=
  matchHere_lits_none trailer s _ st h

theorem matchHere_reTrailer_some (t : List Char) (st : Bool) (hne : t ≠ [])
    (ht : singleLine t) : matchHere reTrailer st (trailer ++ t) = some [] := by
  have h1 := matchHere_lits_append trailer t [.plus dot, .eol] st
  have h2 : trailer.isEmpty = false := rfl
  rw [h2, Bool.and_false] at h1
  cases t with
  | nil => exact absurd rfl hne
  | cons x xs =>
    have hx : dot x = true := by simpa [dot] using ht x (List.mem_cons_self _ _)
    have h3 := starLoop_append dot (matchHere [.eol]) xs [] []
      (fun c hc => by simpa [dot] using ht c (List.mem_cons_of_mem _ hc))
      (fun st => by simp [starLoop, matchHere]) false
    rw [List.append_nil] at h3
    rw [reTrailer, h1, matchHere, if_pos hx]
    exact h3

theorem replace_reMarker_none (s : List Char) (h : ¬ marker <:+: s) :
    QString.replace s reMarker [] = s :=
  replaceFrom_none reMarker [] s true
    (fun st u hu => matchHere_reMarker_none u st (fun hi => h (hi.trans hu.isInfix)))

theorem replace_reTrailer_none (s : List Char) (h : ¬ trailer <:+: s) :
    QString.replace s reTrailer closing = s :=
  replaceFrom_none reTrailer closing s true
    (fun st u hu => matchHere_reTrailer_none u st (fun hp => h (hp.isInfix.trans hu.isInfix)))

theorem replace_reMarker_last (pre t : List Char) (hpre : singleLine pre)
    (h : ¬ marker <:+: t) : QString.replace (pre ++ marker ++ t) reMarker [] = t := by
  have hm := matchHere_reMarker_last pre t hpre h
  have hne : pre ++ marker ≠ [] := by simp [marker_eq]
  have := replaceFrom_match reMarker [] (pre ++ marker) t true hne hm
  rw [QString.replace, this, List.nil_append]
  apply replaceFrom_none
  intro st u hu
  exact matchHere_reMarker_none u st (fun hi => h (hi.trans hu.isInfix))

theorem replace_reTrailer_first (a t : List Char) (hne : t ≠ []) (ht : singleLine t)
    (hfirst : ∀ a1 t1, a ++ trailer ++ t = a1 ++ trailer ++ t1 → a.length ≤ a1.length) :
    QString.replace (a ++ trailer ++ t) reTrailer closing = a ++ closing := by
  have hpre := replaceFrom_prefix reTrailer closing a (trailer ++ t) true (by
    intro st a1 a2 e ne
    apply matchHere_reTrailer_none
    rintro ⟨t1, ht1⟩
    have := hfirst a1 t1 (by rw [e]; simp only [List.append_assoc]; rw [ht1])
    have hlen : a.length = a1.length + a2.length := by rw [e, List.length_append]
    have : a2.length = 0 := by omega
    exact ne (List.length_eq_zero.1 this))
  have hm := matchHere_reTrailer_some t (true && a.isEmpty) hne ht
  have hne2 : trailer ++ t ≠ [] := by simp [trailer_eq]
  have hrep := replaceFrom_match reTrailer closing (trailer ++ t) [] (true && a.isEmpty) hne2
    (by simpa using hm)
  have hend : replaceFrom reTrailer closing [] false 0 = [] := by
    simp [replaceFrom, reTrailer, trailer_eq, lits, chr, matchHere]
  rw [List.append_nil, hend, List.append_nil] at hrep
  rw [QString.replace, List.append_assoc, hpre, hrep]


theorem last_occurrence (m p t : List Char) (h : ¬ m <:+: m.tail ++ t) :
    ∀ p1 t1, p ++ m ++ t = p1 ++ m ++ t1 → p1.length ≤ p.length := by
  intro p1 t1 e
  by_contra hlt
  cases m with
  | nil => exact h (List.nil_infix)
  | cons c m =>
    apply h
    have h1 : (c :: m) ++ t1 <:+ p ++ (c :: m) ++ t := ⟨p1, by rw [e]; simp⟩
    have h2 : m ++ t <:+ p ++ (c :: m) ++ t := ⟨p ++ [c], by simp⟩
    have hlen := congrArg List.length e
    simp only [List.length_append, List.length_cons] at hlen
    have h3 : (c :: m ++ t1) <:+ m ++ t :=
      List.suffix_of_suffix_length_le h1 h2 (by
        simp only [List.length_append, List.length_cons]
        omega)
    exact (List.prefix_append _ _).isInfix.trans h3.isInfix

theorem first_occurrence (m a t : List Char) (h : ¬ m <:+: a ++ m.dropLast) :
    ∀ a1 t1, a ++ m ++ t = a1 ++ m ++ t1 → a.length ≤ a1.length := by
  intro a1 t1 e
  by_contra hlt
  by_cases hm : m = []
  · subst hm
    exact h (List.nil_infix)
  · apply h
    have h1 : a1 ++ m <+: a ++ m ++ t := ⟨t1, by rw [e]⟩
    have h2 : a ++ m.dropLast <+: a ++ m ++ t :=
      ⟨[m.getLast hm] ++ t, by
        conv_rhs => rw [← List.dropLast_append_getLast hm]
        simp⟩
    have hpos : 0 < m.length := List.length_pos.2 hm
    have h3 : a1 ++ m <+: a ++ m.dropLast :=
      List.prefix_of_prefix_length_le h1 h2 (by
        simp only [List.length_append, List.length_dropLast]
        omega)
    exact (List.suffix_append _ _).isInfix.trans h3.isInfix

/-! ## The claims about trimming the carrier line -/

/-- C6 (as amended): for a single-line carrier line that contains the marker `content.json`
and no `}}]PK`, `chopJsonDoc` returns the part of the line after the LAST occurrence of the
marker, up to the end of the line; with a single occurrence this is the part after it. -/
theorem C6_marker_last (p t : List Char) (hline : singleLine (p ++ marker ++ t))
    (htrailer : ¬ trailer <:+: p ++ marker ++ t)
    (hlast : ∀ p1 t1, p ++ marker ++ t = p1 ++ marker ++ t1 → p1.length ≤ p.length) :
    chopJsonDoc (p ++ marker ++ t) = t := by
  have hnot : ¬ marker <:+: t := by
    rintro ⟨u, w, rfl⟩
    have := hlast (p ++ marker ++ u) w (by simp)
    simp only [List.length_append, marker_eq, List.length_cons, List.length_nil] at this
    omega
  have hp : singleLine p := fun c hc => hline c (by simp [hc])
  have h1 := replace_reMarker_last p t hp hnot
  have h2 := replace_reTrailer_none t
    (fun hi => htrailer (hi.trans (List.suffix_append _ _).isInfix))
  simp only [chopJsonDoc, h1, h2]

/-- C6 on the line `xycontent.jsonAcontent.json[1]`, where the marker occurs twice: the
result is `[1]`, the text after the second occurrence. -/
theorem C6_marker_last_witness :
    (singleLine ("xycontent.jsonA".toList ++ marker ++ "[1]".toList) ∧
      ¬ trailer <:+: "xycontent.jsonA".toList ++ marker ++ "[1]".toList) ∧
      chopJsonDoc ("xycontent.jsonA".toList ++ marker ++ "[1]".toList) = "[1]".toList :=
  ⟨⟨by decide, by decide⟩,
    C6_marker_last "xycontent.jsonA".toList "[1]".toList (by decide) (by decide)
      (last_occurrence marker _ _ (by decide))⟩

/-- C6 as stated fails on the line `xycontent.jsonAcontent.jsonB`: the first occurrence of
the marker follows `xy`, so the stated result is `Acontent.jsonB`, but `chopJsonDoc`
returns `B`, the text after the second occurrence. -/
theorem C6_counterexample :
    singleLine "xycontent.jsonAcontent.jsonB".toList ∧
      ¬ trailer <:+: "xycontent.jsonAcontent.jsonB".toList ∧
      "xycontent.jsonAcontent.jsonB".toList =
        "xy".toList ++ marker ++ "Acontent.jsonB".toList ∧
      ¬ marker <:+: "xy".toList ++ marker.dropLast ∧
      chopJsonDoc "xycontent.jsonAcontent.jsonB".toList = "B".toList ∧
      chopJsonDoc "xycontent.jsonAcontent.jsonB".toList ≠ "Acontent.jsonB".toList := by
  decide

/-- C7 (as amended): for a single-line text without the marker that contains `}}]PK`
followed by at least one more character, `chopJsonDoc` keeps everything up to and including
the `}}]` of the LEFTMOST occurrence of `}}]PK` and discards everything after it. -/
theorem C7_trailer_leftmost (a t : List Char) (hline : singleLine (a ++ trailer ++ t))
    (hmarker : ¬ marker <:+: a ++ trailer ++ t) (hmore : t ≠ [])
    (hfirst : ∀ a1 t1, a ++ trailer ++ t = a1 ++ trailer ++ t1 → a.length ≤ a1.length) :
    chopJsonDoc (a ++ trailer ++ t) = a ++ closing := by
  have ht : singleLine t := fun c hc => hline c (by simp [hc])
  have h1 := replace_reMarker_none _ hmarker
  have h2 := replace_reTrailer_first a t hmore ht hfirst
  simp only [chopJsonDoc, h1, h2]

/-- C7 on the line `[` `}}]PK` `x` `}}]PK` `y`, where `}}]PK` occurs twice: the text is cut
after the first `}}]`, which leaves `[}}]`. -/
theorem C7_trailer_leftmost_witness :
    (singleLine ("[".toList ++ trailer ++ ("x".toList ++ trailer ++ "y".toList)) ∧
      ¬ marker <:+: "[".toList ++ trailer ++ ("x".toList ++ trailer ++ "y".toList) ∧
      "x".toList ++ trailer ++ "y".toList ≠ []) ∧
      chopJsonDoc ("[".toList ++ trailer ++ ("x".toList ++ trailer ++ "y".toList)) =
        "[".toList ++ closing :=
  ⟨⟨by decide, by decide, by decide⟩,
    C7_trailer_leftmost "[".toList ("x".toList ++ trailer ++ "y".toList) (by decide)
      (by decide) (by decide) (first_occurrence trailer _ _ (by decide))⟩

/-- C7 as stated fails on the line `[` `}}]PK` `x` `}}]PK` `y`: the rightmost `}}]` that is
followed by `PK` and further text is the second one (nothing but `y` follows it), so the
stated result is `[}}]PKx}}]`, but `chopJsonDoc` returns `[}}]`, cut after the first one. -/
theorem C7_counterexample :
    singleLine ("[".toList ++ trailer ++ "x".toList ++ trailer ++ "y".toList) ∧
      ¬ marker <:+: "[".toList ++ trailer ++ "x".toList ++ trailer ++ "y".toList ∧
      "y".toList ≠ [] ∧
      ¬ trailer <:+: trailer.tail ++ "y".toList ∧
      chopJsonDoc ("[".toList ++ trailer ++ "x".toList ++ trailer ++ "y".toList) =
        "[".toList ++ closing ∧
      chopJsonDoc ("[".toList ++ trailer ++ "x".toList ++ trailer ++ "y".toList) ≠
        ("[".toList ++ trailer ++ "x".toList) ++ closing := by
  decide

/-- C8: a text that contains neither the marker `content.json` nor `}}]PK` is returned by
`chopJsonDoc` unchanged; this holds for every text, single-line texts among them. -/
theorem C8_no_op (s : List Char) (hmarker : ¬ marker <:+: s) (htrailer : ¬ trailer <:+: s) :
    chopJsonDoc s = s := by
  have h1 := replace_reMarker_none s hmarker
  have h2 := replace_reTrailer_none s htrailer
  simp only [chopJsonDoc, h1, h2]

/-- C8 on the single-line text `["rootTopic"]`. -/
theorem C8_no_op_witness :
    (¬ marker <:+: "[\"rootTopic\"]".toList ∧ ¬ trailer <:+: "[\"rootTopic\"]".toList) ∧
      chopJsonDoc "[\"rootTopic\"]".toList = "[\"rootTopic\"]".toList :=
  ⟨⟨by decide, by decide⟩, C8_no_op _ (by decide) (by decide)⟩

/-! ## The claims about the driver -/

/-- C9 (what the code does): when the second line is read and parsed but `./parsed.json`
cannot be opened for writing, `writeToDisk` returns `false`, yet `xmindParser` returns
`true` and the exit status is 0, with `./parsed.json` left as it was. -/
theorem C9_write_failure_exit_zero (env : Env) (s : Sys) (l1 l2 : List Char)
    (rest : List (List Char)) (doc : QJsonDocument)
    (hargc : 2 ≤ env.argc) (hreg : env.isRegularFile = true) (hread : env.canRead = true)
    (hlines : env.lines = l1 :: l2 :: rest)
    (hparse : env.fromJson (chopJsonDoc l2) = some doc) (hwrite : env.canWrite = false) :
    (writeToDisk env (processNodes env doc)
        (((s.call .readXmindJsonDoc).call .chopJsonDoc).call .processNodes)).1 = false ∧
      (xmindParser env s).1 = true ∧
      exitStatus (main env s).1 = 0 ∧
      (main env s).2.parsed = s.parsed := by
  have hx : xmindParser env s = (true,
      ((((s.call .readXmindJsonDoc).call .chopJsonDoc).call .processNodes).call
        .writeToDisk)) := by
    simp [xmindParser, readXmindJsonDoc, hread, hlines, hparse, writeToDisk, hwrite]
  have hm : main env s = (0,
      ((((s.call .readXmindJsonDoc).call .chopJsonDoc).call .processNodes).call
        .writeToDisk)) := by
    have : ¬ env.argc < 2 := by omega
    simp [main, this, hreg, hx]
  refine ⟨by simp [writeToDisk, hwrite], by rw [hx], by rw [hm]; rfl, by rw [hm]; rfl⟩

/-- C9 on the sample run with `./parsed.json` not writable and absent: exit status 0. -/
theorem C9_write_failure_exit_zero_witness :
    (sampleEnv false).canWrite = false ∧
      exitStatus (main (sampleEnv false) ⟨none, []⟩).1 = 0 ∧
      (main (sampleEnv false) ⟨none, []⟩).2.parsed = none :=
  ⟨rfl, (C9_write_failure_exit_zero (sampleEnv false) ⟨none, []⟩ _ _ _ _ (by decide) rfl rfl
    rfl rfl rfl).2.2⟩

/-- C10: when the input has fewer than two lines, `readXmindJsonDoc` returns no payload,
`xmindParser` returns `false` having invoked nothing but `readXmindJsonDoc` (neither
`processNodes` nor `writeToDisk`), `./parsed.json` is left as it was, and the exit status of
`main` is not zero. -/
theorem C10_missing_second_line (env : Env) (s : Sys) (h : env.lines.length < 2) :
    (readXmindJsonDoc env s).1 = none ∧
      (xmindParser env s).1 = false ∧
      (xmindParser env s).2.calls = s.calls ++ [Call.readXmindJsonDoc] ∧
      (xmindParser env s).2.parsed = s.parsed ∧
      (main env s).2.parsed = s.parsed ∧
      Call.processNodes ∉ (main env ⟨s.parsed, []⟩).2.calls ∧
      Call.writeToDisk ∉ (main env ⟨s.parsed, []⟩).2.calls ∧
      exitStatus (main env s).1 ≠ 0 := by
  have hr : ∀ s, readXmindJsonDoc env s = (none, s.call .readXmindJsonDoc) := by
    intro s
    rcases hl : env.lines with _ | ⟨l1, _ | ⟨l2, rest⟩⟩
    · simp [readXmindJsonDoc, hl]
    · simp [readXmindJsonDoc, hl]
    · exfalso
      rw [hl] at h
      simp only [List.length_cons] at h
      omega
  have hx : ∀ s, xmindParser env s = (false, s.call .readXmindJsonDoc) := by
    intro s
    simp [xmindParser, hr]
  have hm : ∀ s, main env s = (-1, s) ∨ main env s = (-1, s.call .readXmindJsonDoc) := by
    intro s
    unfold main
    split
    · exact Or.inl rfl
    · split
      · rw [hx]
        exact Or.inr rfl
      · exact Or.inl rfl
  refine ⟨by rw [hr], by rw [hx], by rw [hx]; rfl, by rw [hx]; rfl, ?_, ?_, ?_, ?_⟩
  · rcases hm s with e | e
    · rw [e]
    · rw [e]
      rfl
  · rcases hm ⟨s.parsed, []⟩ with e | e <;> (rw [e]; simp [Sys.call])
  · rcases hm ⟨s.parsed, []⟩ with e | e <;> (rw [e]; simp [Sys.call])
  · have hne : exitStatus (-1) ≠ 0 := by decide
    rcases hm s with e | e <;> (rw [e]; exact hne)

/-- C10 on a file that has a single line. -/
theorem C10_missing_second_line_witness :
    oneLineEnv.lines.length < 2 ∧
      (xmindParser oneLineEnv ⟨none, []⟩).1 = false ∧
      (xmindParser oneLineEnv ⟨none, []⟩).2.calls = [Call.readXmindJsonDoc] ∧
      exitStatus (main oneLineEnv ⟨none, []⟩).1 ≠ 0 :=
  ⟨by decide,
    (C10_missing_second_line oneLineEnv ⟨none, []⟩ (by decide)).2.1,
    (C10_missing_second_line oneLineEnv ⟨none, []⟩ (by decide)).2.2.1,
    (C10_missing_second_line oneLineEnv ⟨none, []⟩ (by decide)).2.2.2.2.2.2.2⟩

/-! ## Further lemmas about trimming -/

theorem not_infix_append (m b w : List Char) (hm : m ≠ []) (hb : ¬ m <:+: b)
    (hw : m.getLast hm ∉ w) : ¬ m <:+: b ++ w := by
  rintro ⟨s, u, h⟩
  rcases List.append_eq_append_iff.1 h with ⟨a, h1, h2⟩ | ⟨c, h1, h2⟩
  · exact hb ⟨s, a, h1.symm⟩
  · by_cases hc : c = []
    · subst hc
      rw [List.append_nil] at h1
      exact hb (h1 ▸ (List.suffix_append s m).isInfix)
    · apply hw
      have hne : s ++ m ≠ [] := by simp [hm]
      have e1 : (s ++ m).getLast hne = m.getLast hm := List.getLast_append_of_ne_nil hm
      have e2 : (s ++ m).getLast hne = c.getLast hc := by
        simp only [h1]
        exact List.getLast_append_of_ne_nil hc
      rw [← e1, e2, h2]
      exact List.mem_append_left _ (List.getLast_mem hc)

theorem trailer_not_straddling (b : List Char) (hb : ¬ trailer <:+: b) :
    ¬ trailer <:+: b ++ trailer.dropLast :=
  not_infix_append trailer b _ (by decide) hb (by decide)

theorem marker_not_in_trailer (b : List Char) (hb : ¬ marker <:+: b) :
    ¬ marker <:+: b ++ trailer :=
  not_infix_append marker b _ (by decide) hb (by decide)

theorem matchHere_reTrailer_inv (v r : List Char) (st : Bool)
    (h : matchHere reTrailer st v = some r) : ∃ t, v = trailer ++ t ∧ t ≠ [] := by
  by_cases hp : trailer <+: v
  · obtain ⟨t, rfl⟩ := hp
    refine ⟨t, rfl, ?_⟩
    rintro rfl
    have h1 := matchHere_lits_append trailer [] [.plus dot, .eol] st
    rw [reTrailer, h1] at h
    simp [matchHere] at h
  · rw [matchHere_reTrailer_none v st hp] at h
    cases h

theorem replace_reTrailer_bare (u : List Char)
    (h : ∀ x t, u = x ++ trailer ++ t → t = []) :
    QString.replace u reTrailer closing = u := by
  apply replaceFrom_none
  intro st v hv
  cases hm : matchHere reTrailer st v with
  | none => rfl
  | some r =>
    exfalso
    obtain ⟨t, rfl, hne⟩ := matchHere_reTrailer_inv v r st hm
    obtain ⟨x, hx⟩ := hv
    exact hne (h x t (by rw [← hx, List.append_assoc]))

/-! ## The claims about scalars and about well-formed carrier lines -/

/-- C13: a value that is neither an object nor an array (null, bool, number, string) is
returned by `processNodeRecursively` unchanged; in particular the number 5, null and the
bool `true` are. -/
theorem C13_scalar_unchanged (v : QJsonValue) (hobj : ∀ o, v ≠ .object o)
    (harr : ∀ a, v ≠ .array a) :
    processNodeRecursively v = v ∧
      processNodeRecursively (.double 5) = .double 5 ∧
      processNodeRecursively .null = .null ∧
      processNodeRecursively (.bool true) = .bool true := by
  refine ⟨?_, rfl, rfl, rfl⟩
  cases v with
  | null => rfl
  | bool b => rfl
  | double d => rfl
  | string s => rfl
  | array a => exact absurd rfl (harr a)
  | object o => exact absurd rfl (hobj o)

/-- C13 at the string `"x"`. -/
theorem C13_scalar_unchanged_witness :
    processNodeRecursively (.string "x") = .string "x" :=
  (C13_scalar_unchanged (.string "x") (fun _ h => QJsonValue.noConfusion h)
    (fun _ h => QJsonValue.noConfusion h)).1

theorem chopJsonDoc_carrier_line (p b t : List Char) (hp : singleLine p)
    (ht : singleLine t) (hne : t ≠ []) (hbody : ¬ trailer <:+: b)
    (hmarker : ¬ marker <:+: b ++ trailer ++ t) :
    chopJsonDoc (p ++ marker ++ b ++ trailer ++ t) = b ++ closing := by
  have e : p ++ marker ++ b ++ trailer ++ t = p ++ marker ++ (b ++ trailer ++ t) := by
    simp only [List.append_assoc]
  have h1 := replace_reMarker_last p (b ++ trailer ++ t) hp hmarker
  have h2 := replace_reTrailer_first b t hne ht
    (first_occurrence trailer b t (trailer_not_straddling b hbody))
  simp only [chopJsonDoc, e, h1, h2]

/-- C15: for single-line texts `p` and `t`, `t` not empty, and a text `b` (single-line or
not), where `b` does not contain `}}]PK` and `b ++ "}}]PK" ++ t` does not contain the
marker, `chopJsonDoc` turns the line `p ++ "content.json" ++ b ++ "}}]PK" ++ t` into
`b ++ "}}]"`. -/
theorem C15_carrier_line (p b t : List Char) (hp : singleLine p)
    (ht : singleLine t) (hne : t ≠ []) (hbody : ¬ trailer <:+: b)
    (hmarker : ¬ marker <:+: b ++ trailer ++ t) :
    chopJsonDoc (p ++ marker ++ b ++ trailer ++ t) = b ++ closing :=
  chopJsonDoc_carrier_line p b t hp ht hne hbody hmarker

set_option maxRecDepth 100000 in
/-- C15 on the carrier line of the end-to-end scenario: the chopped text starts at
`{"rootTopic"` and ends with the `}}]` in front of `PK`. -/
theorem C15_carrier_line_witness :
    (singleLine scenarioJunk ∧ singleLine scenarioRest ∧
      scenarioRest ≠ [] ∧ ¬ trailer <:+: scenarioObject ∧
      ¬ marker <:+: scenarioObject ++ trailer ++ scenarioRest) ∧
      chopJsonDoc (scenarioJunk ++ marker ++ scenarioObject ++ trailer ++ scenarioRest) =
        scenarioObject ++ closing :=
  ⟨⟨by decide, by decide, by decide, by decide, by decide⟩,
    C15_carrier_line scenarioJunk scenarioObject scenarioRest (by decide) (by decide)
      (by decide) (by decide) (by decide)⟩

/-- C16 (as amended): for a text `b` without the marker and without `}}]PK`, `chopJsonDoc`
returns `b ++ "}}]PK"` unchanged: the pattern `}}]PK.+$` asks for at least one character
after `PK`, so a bare `PK` at the end of the text is not stripped. -/
theorem C16_bare_trailer_unchanged (b : List Char) (hmarker : ¬ marker <:+: b)
    (hbody : ¬ trailer <:+: b) : chopJsonDoc (b ++ trailer) = b ++ trailer := by
  have h1 := replace_reMarker_none _ (marker_not_in_trailer b hmarker)
  have h2 := replace_reTrailer_bare (b ++ trailer) (by
    intro x t e
    have hle := first_occurrence trailer b [] (trailer_not_straddling b hbody) x t
      (by rw [List.append_nil]; exact e)
    have hlen := congrArg List.length e
    simp only [List.length_append] at hlen
    exact List.length_eq_zero.1 (by omega))
  simp only [chopJsonDoc, h1, h2]

/-- C16 on the text `[1`: the result is `[1}}]PK`. -/
theorem C16_bare_trailer_unchanged_witness :
    (¬ marker <:+: "[1".toList ∧ ¬ trailer <:+: "[1".toList) ∧
      chopJsonDoc ("[1".toList ++ trailer) = "[1".toList ++ trailer :=
  ⟨⟨by decide, by decide⟩, C16_bare_trailer_unchanged _ (by decide) (by decide)⟩

/-- C16 as stated fails on the body `[1`, a single line without the marker and without
`}}]PK`: the stated result for `[1}}]PK` is `[1}}]`, but `chopJsonDoc` returns `[1}}]PK`. -/
theorem C16_counterexample :
    singleLine "[1".toList ∧ ¬ marker <:+: "[1".toList ∧ ¬ trailer <:+: "[1".toList ∧
      chopJsonDoc ("[1".toList ++ trailer) = "[1".toList ++ trailer ∧
      chopJsonDoc ("[1".toList ++ trailer) ≠ "[1".toList ++ closing := by
  decide

/-! ## The claims about parsing -/

theorem not_infix_append_right (m b w : List Char) (hb : ¬ m <:+: b) (hw : ¬ m <:+: w)
    (hlast : ∀ hne : b ≠ [], b.getLast hne ∉ m) : ¬ m <:+: b ++ w := by
  rintro ⟨s, u, h⟩
  rw [List.append_assoc] at h
  rcases List.append_eq_append_iff.1 h with ⟨a, h1, h2⟩ | ⟨c, h1, h2⟩
  · rcases List.append_eq_append_iff.1 h2 with ⟨a2, h3, h4⟩ | ⟨c2, h3, h4⟩
    · exact hb ⟨s, a2, by rw [h1, h3, List.append_assoc]⟩
    · by_cases ha : a = []
      · subst ha
        rw [List.nil_append] at h3
        exact hw ⟨[], u, by rw [h4, h3]; rfl⟩
      · have hne : b ≠ [] := by rw [h1]; simp [ha]
        apply hlast hne
        have : b.getLast hne = a.getLast ha := by
          simp only [h1]
          exact List.getLast_append_of_ne_nil ha
        rw [this, h3]
        exact List.mem_append_left _ (List.getLast_mem ha)
  · exact hw ⟨c, u, by rw [h2, List.append_assoc]⟩

theorem not_infix_append_after (m b w : List Char) (x : Char) (hb : ¬ m <:+: b ++ [x])
    (hw : ¬ m <:+: w) (hx : x ∉ m) : ¬ m <:+: b ++ [x] ++ w :=
  not_infix_append_right m (b ++ [x]) w hb hw (fun hne => by
    rw [List.getLast_append_of_ne_nil (List.cons_ne_nil x [])]
    exact hx)

/-- C11: when the second line is read and the parser reports an error on the trimmed text,
`xmindParser` returns `false` having invoked `readXmindJsonDoc` and `chopJsonDoc` only, so
`writeToDisk` is never invoked and `./parsed.json` is left as it was, and the exit status of
`main` is not zero. -/
theorem C11_parse_failure (env : Env) (s : Sys) (l1 l2 : List Char) (rest : List (List Char))
    (hread : env.canRead = true) (hlines : env.lines = l1 :: l2 :: rest)
    (hparse : env.fromJson (chopJsonDoc l2) = none) :
    (xmindParser env s).1 = false ∧
      (xmindParser env s).2.calls = s.calls ++ [Call.readXmindJsonDoc, Call.chopJsonDoc] ∧
      (xmindParser env s).2.parsed = s.parsed ∧
      Call.writeToDisk ∉ (main env ⟨s.parsed, []⟩).2.calls ∧
      (main env s).2.parsed = s.parsed ∧
      exitStatus (main env s).1 ≠ 0 := by
  have hx : ∀ s, xmindParser env s =
      (false, (s.call .readXmindJsonDoc).call .chopJsonDoc) := by
    intro s
    simp [xmindParser, readXmindJsonDoc, hread, hlines, hparse]
  have hm : ∀ s, main env s = (-1, s) ∨
      main env s = (-1, (s.call .readXmindJsonDoc).call .chopJsonDoc) := by
    intro s
    unfold main
    split
    · exact Or.inl rfl
    · split
      · rw [hx]
        exact Or.inr rfl
      · exact Or.inl rfl
  have hne : exitStatus (-1) ≠ 0 := by decide
  refine ⟨by rw [hx], by rw [hx]; simp [Sys.call], by rw [hx]; rfl, ?_, ?_, ?_⟩
  · rcases hm ⟨s.parsed, []⟩ with e | e <;> (rw [e]; simp [Sys.call])
  · rcases hm s with e | e
    · rw [e]
    · rw [e]
      rfl
  · rcases hm s with e | e <;> (rw [e]; exact hne)

/-- C11 on a file whose second line breaks off in the middle of an object: the document
parser rejects the trimmed text, nothing is written and the exit status is not zero. -/
theorem C11_parse_failure_witness :
    (malformedEnv.canRead = true ∧
      malformedEnv.fromJson (chopJsonDoc "xcontent.json[\x7b\"title\":".toList) = none) ∧
      (xmindParser malformedEnv ⟨none, []⟩).1 = false ∧
      (main malformedEnv ⟨none, []⟩).2.parsed = none ∧
      exitStatus (main malformedEnv ⟨none, []⟩).1 ≠ 0 :=
  ⟨⟨rfl, rfl⟩,
    (C11_parse_failure malformedEnv ⟨none, []⟩ _ _ _ rfl rfl rfl).1,
    (C11_parse_failure malformedEnv ⟨none, []⟩ _ _ _ rfl rfl rfl).2.2.2.2.1,
    (C11_parse_failure malformedEnv ⟨none, []⟩ _ _ _ rfl rfl rfl).2.2.2.2.2⟩

set_option maxRecDepth 100000 in
/-- C12 (as amended): for the carrier line made of a single-line junk prefix, the marker,
the payload text of the scenario and a trailer `PK`, byte 3, byte 4 and a single-line rest
without the marker, `chopJsonDoc` produces the payload text; the parser reads the JSON
object at its start and finds `}}]` left over, so the document parser rejects the text;
the JSON object alone is accepted and filtering its value yields
`{"rootTopic":{"title":"Root","children":{"attached":[{"title":"Child"}]}}}`. -/
theorem C12_scenario (junk rest : List Char) (hjunk : singleLine junk)
    (hrest : singleLine rest) (hmarker : ¬ marker <:+: rest) :
    chopJsonDoc (junk ++ marker ++ scenarioPayload ++ 'P' :: 'K' :: '\x03' :: '\x04' :: rest) =
        scenarioPayload ∧
      parseValue (2 * scenarioPayload.length + 2) (skipWs scenarioPayload) =
        some (.object scenarioValue, closing) ∧
      fromJson scenarioPayload = none ∧
      fromJson scenarioObject = some (.ofObject scenarioValue) ∧
      processNodeRecursively (.object scenarioValue) = .object scenarioFiltered := by
  refine ⟨?_, rfl, rfl, rfl, rfl⟩
  have e : junk ++ marker ++ scenarioPayload ++ 'P' :: 'K' :: '\x03' :: '\x04' :: rest =
      junk ++ marker ++ scenarioObject ++ trailer ++ ('\x03' :: '\x04' :: rest) := by
    simp [scenarioPayload, closing_eq, trailer_eq]
  rw [e]
  apply chopJsonDoc_carrier_line junk scenarioObject _ hjunk
  · intro c hc
    rcases List.mem_cons.1 hc with rfl | hc
    · decide
    · rcases List.mem_cons.1 hc with rfl | hc
      · decide
      · exact hrest c hc
  · simp
  · decide
  · have := not_infix_append_after marker (scenarioObject ++ trailer ++ ['\x03']) rest '\x04'
      (by decide) hmarker (by decide)
    simpa [List.append_assoc] using this

set_option maxRecDepth 100000 in
/-- C12 on the carrier line of the scenario, with the junk `junk...` and the rest `...`. -/
theorem C12_scenario_witness :
    (singleLine scenarioJunk ∧ singleLine "...".toList ∧ ¬ marker <:+: "...".toList) ∧
      chopJsonDoc (scenarioJunk ++ marker ++ scenarioPayload ++
        'P' :: 'K' :: '\x03' :: '\x04' :: "...".toList) = scenarioPayload ∧
      fromJson scenarioPayload = none :=
  ⟨⟨by decide, by decide, by decide⟩,
    (C12_scenario scenarioJunk "...".toList (by decide) (by decide) (by decide)).1,
    (C12_scenario scenarioJunk "...".toList (by decide) (by decide) (by decide)).2.2.1⟩

set_option maxRecDepth 100000 in
/-- C12 as stated fails on the carrier line of the scenario: the text produced by
`chopJsonDoc` is the payload, the JSON object followed by `}}]`, and the document parser
does not accept it. -/
theorem C12_counterexample :
    singleLine scenarioLine ∧
      chopJsonDoc scenarioLine = scenarioObject ++ closing ∧
      ¬ ∃ doc, fromJson (chopJsonDoc scenarioLine) = some doc := by
  have h : chopJsonDoc scenarioLine = scenarioObject ++ closing := by decide
  refine ⟨by decide, h, ?_⟩
  rw [h]
  rintro ⟨doc, hdoc⟩
  have hnone : fromJson (scenarioObject ++ closing) = none := rfl
  rw [hnone] at hdoc
  cases hdoc

/-! ## Trimming twice -/

theorem exists_last_occurrence (m : List Char) (hm : m ≠ []) :
    ∀ (n : Nat) (s : List Char), s.length ≤ n → m <:+: s →
      ∃ p t, s = p ++ m ++ t ∧ ¬ m <:+: t := by
  intro n
  induction n with
  | zero =>
    intro s hlen h
    have hs : s = [] := List.length_eq_zero.1 (Nat.le_zero.1 hlen)
    subst hs
    exact absurd (List.eq_nil_of_infix_nil h) hm
  | succ n ih =>
    intro s hlen h
    obtain ⟨p, t, rfl⟩ := h
    by_cases h2 : m <:+: t
    · have hpos : 0 < m.length := List.length_pos.2 hm
      simp only [List.length_append] at hlen
      obtain ⟨p2, t2, rfl, h3⟩ := ih t (by omega) h2
      exact ⟨p ++ m ++ p2, t2, by simp only [List.append_assoc], h3⟩
    · exact ⟨p, t, rfl, h2⟩

theorem matchHere_reTrailer_flag (v : List Char) (st st2 : Bool) :
    matchHere reTrailer st v = matchHere reTrailer st2 v := by
  by_cases hp : trailer <+: v
  · obtain ⟨t, rfl⟩ := hp
    have h1 := matchHere_lits_append trailer t [.plus dot, .eol] st
    have h2 := matchHere_lits_append trailer t [.plus dot, .eol] st2
    have h3 : trailer.isEmpty = false := rfl
    rw [h3, Bool.and_false] at h1 h2
    rw [reTrailer, h1, h2]
  · rw [matchHere_reTrailer_none v st hp, matchHere_reTrailer_none v st2 hp]

theorem replaceFrom_reTrailer_end : replaceFrom reTrailer closing [] false 0 = [] := by
  simp [replaceFrom, reTrailer, trailer_eq, lits, chr, matchHere]

theorem replace_reTrailer_cases (u : List Char) (hu : singleLine u) :
    ∀ st, (replaceFrom reTrailer closing u st 0 = u ∧
        ∀ st2 v, v <:+ u → matchHere reTrailer st2 v = none) ∨
      (∃ a t, u = a ++ trailer ++ t ∧ t ≠ [] ∧
        replaceFrom reTrailer closing u st 0 = a ++ closing ∧
        ∀ a1 t1, u = a1 ++ trailer ++ t1 → t1 ≠ [] → a.length ≤ a1.length) := by
  induction u with
  | nil =>
    intro st
    have h0 : ∀ st2, matchHere reTrailer st2 [] = none := fun st2 =>
      matchHere_reTrailer_none [] st2 (by decide)
    refine Or.inl ⟨by simp [replaceFrom, h0 st], ?_⟩
    intro st2 v hv
    rw [List.eq_nil_of_suffix_nil hv]
    exact h0 st2
  | cons x xs ih =>
    intro st
    have hxs : singleLine xs := fun c hc => hu c (List.mem_cons_of_mem _ hc)
    cases hm : matchHere reTrailer st (x :: xs) with
    | none =>
      have hR : replaceFrom reTrailer closing (x :: xs) st 0 =
          x :: replaceFrom reTrailer closing xs false 0 := by
        simp [replaceFrom, hm]
      rcases ih hxs false with ⟨h1, h2⟩ | ⟨a, t, h1, hne, h2, h3⟩
      · refine Or.inl ⟨by rw [hR, h1], ?_⟩
        intro st2 v hv
        rcases List.suffix_cons_iff.1 hv with rfl | hv
        · rw [matchHere_reTrailer_flag _ st2 st, hm]
        · exact h2 st2 v hv
      · refine Or.inr ⟨x :: a, t, by rw [h1]; rfl, hne, by rw [hR, h2]; rfl, ?_⟩
        intro a1 t1 e hne1
        cases a1 with
        | nil =>
          exfalso
          rw [List.nil_append] at e
          have ht1 : singleLine t1 := fun c hc => hu c (by rw [e]; simp [hc])
          have := matchHere_reTrailer_some t1 st hne1 ht1
          rw [← e, hm] at this
          cases this
        | cons y a1 =>
          simp only [List.cons_append, List.cons.injEq] at e
          have := h3 a1 t1 e.2 hne1
          simp only [List.length_cons]
          omega
    | some r =>
      obtain ⟨t, e, hne⟩ := matchHere_reTrailer_inv _ r st hm
      have ht : singleLine t := fun c hc => hu c (by rw [e]; simp [hc])
      have hsome := matchHere_reTrailer_some t st hne ht
      have hne2 : trailer ++ t ≠ [] := by simp [trailer_eq]
      have hrep := replaceFrom_match reTrailer closing (trailer ++ t) [] st hne2
        (by simpa using hsome)
      rw [List.append_nil, replaceFrom_reTrailer_end, List.append_nil] at hrep
      refine Or.inr ⟨[], t, by rw [e]; rfl, hne, by rw [e, hrep]; rfl, ?_⟩
      intro a1 t1 _ _
      exact Nat.zero_le _

theorem replace_reMarker_facts (s : List Char) (hs : singleLine s) :
    singleLine (QString.replace s reMarker []) ∧
      ¬ marker <:+: QString.replace s reMarker [] := by
  by_cases h : marker <:+: s
  · obtain ⟨p, t, rfl, hnot⟩ := exists_last_occurrence marker (by decide) _ s (le_refl _) h
    have hp : singleLine p := fun c hc => hs c (by simp [hc])
    rw [replace_reMarker_last p t hp hnot]
    exact ⟨fun c hc => hs c (by simp [hc]), hnot⟩
  · rw [replace_reMarker_none s h]
    exact ⟨hs, h⟩

/-- C19: trimming is idempotent on single-line texts: a second pass of `chopJsonDoc` finds
neither the marker nor a `}}]PK` followed by further text, and changes nothing. -/
theorem C19_chop_idempotent (s : List Char) (hs : singleLine s) :
    chopJsonDoc (chopJsonDoc s) = chopJsonDoc s := by
  obtain ⟨hline, hmark⟩ := replace_reMarker_facts s hs
  have hchop : ∀ x, chopJsonDoc x =
      QString.replace (QString.replace x reMarker []) reTrailer closing := fun _ => rfl
  rw [hchop s]
  generalize QString.replace s reMarker [] = u at hline hmark
  have key : ∀ r : List Char, ¬ marker <:+: r →
      (∀ st v, v <:+ r → matchHere reTrailer st v = none) → chopJsonDoc r = r := by
    intro r h1 h2
    rw [hchop, replace_reMarker_none r h1]
    exact replaceFrom_none reTrailer closing r true h2
  rcases replace_reTrailer_cases u hline true with ⟨h1, h2⟩ | ⟨a, t, e, hne, h1, h2⟩
  · rw [QString.replace, h1]
    exact key u hmark h2
  · rw [QString.replace, h1]
    have hpre : a ++ closing <+: u :=
      ⟨'P' :: 'K' :: t, by rw [e]; simp [closing_eq, trailer_eq]⟩
    apply key _ (fun hi => hmark (hi.trans hpre.isInfix))
    intro st v hv
    cases hm : matchHere reTrailer st v with
    | none => rfl
    | some r =>
      exfalso
      obtain ⟨t2, rfl, hne2⟩ := matchHere_reTrailer_inv v r st hm
      obtain ⟨x, hx⟩ := hv
      have e2 : u = x ++ trailer ++ (t2 ++ 'P' :: 'K' :: t) := by
        have : a ++ trailer ++ t = (a ++ closing) ++ 'P' :: 'K' :: t := by
          simp [closing_eq, trailer_eq]
        rw [e, this, ← hx]
        simp only [List.append_assoc]
      have hle := h2 x _ e2 (by simp [hne2])
      have hlen := congrArg List.length hx
      simp only [List.length_append, closing_eq, trailer_eq, List.length_cons,
        List.length_nil] at hlen
      have hpos : 0 < t2.length := List.length_pos.2 hne2
      omega

/-- C19 on the line `xcontent.json[` `}}]PK` `x` `}}]PK` `y`: the first pass gives `[}}]`,
and so does the second. -/
theorem C19_chop_idempotent_witness :
    singleLine ("xcontent.json[".toList ++ trailer ++ "x".toList ++ trailer ++ "y".toList) ∧
      chopJsonDoc (chopJsonDoc
        ("xcontent.json[".toList ++ trailer ++ "x".toList ++ trailer ++ "y".toList)) =
        chopJsonDoc
          ("xcontent.json[".toList ++ trailer ++ "x".toList ++ trailer ++ "y".toList) :=
  ⟨by decide, C19_chop_idempotent _ (by decide)⟩

/-! ## Paths and fixed points of the filter -/

theorem objectsIn_of_member (o : QJsonObject) (kv : String × QJsonValue) (h : kv ∈ o)
    (o2 : QJsonObject) (h2 : o2 ∈ objectsIn kv.2) : o2 ∈ objectsIn (.object o) := by
  simp only [objectsIn, List.mem_cons, mem_objectsInMembers]
  exact Or.inr ⟨kv, h, h2⟩

theorem objectsIn_of_item (a : QJsonArray) (v : QJsonValue) (h : v ∈ a)
    (o2 : QJsonObject) (h2 : o2 ∈ objectsIn v) : o2 ∈ objectsIn (.array a) := by
  simp only [objectsIn, mem_objectsInItems]
  exact ⟨v, h, h2⟩

theorem filter_object_eq (o : QJsonObject) (h : (QJsonObject.keys o).Nodup) :
    processNodeRecursively (.object o) = .object ((retained o).map filterEntry) := by
  have hsub : (retained o).keys.Nodup :=
    List.Nodup.sublist (List.Sublist.map _ (List.filter_sublist _)) h
  have := processObjectLoop_eq o [] (by simpa [QJsonObject.keys] using hsub)
  simp only [processNodeRecursively, this, List.nil_append]

theorem filter_array_eq (a : QJsonArray) :
    processNodeRecursively (.array a) = .array (a.map processNodeRecursively) := by
  simp [processNodeRecursively, processArrayLoop_eq]

theorem value_mem (o : QJsonObject) (k : String) (w : QJsonValue)
    (h : QJsonObject.value o k = some w) : (k, w) ∈ o := by
  induction o with
  | nil => simp [QJsonObject.value] at h
  | cons kv rest ih =>
    obtain ⟨k2, v2⟩ := kv
    simp only [QJsonObject.value] at h
    split at h
    · rename_i hk
      cases h
      rw [hk]
      exact List.mem_cons_self _ _
    · exact List.mem_cons_of_mem _ (ih h)

theorem value_filter (o : QJsonObject) (k : String) :
    QJsonObject.value ((retained o).map filterEntry) k =
      if cfg.captured.contains k then (QJsonObject.value o k).map processNodeRecursively
      else none := by
  induction o with
  | nil => simp [retained, QJsonObject.value]
  | cons kv rest ih =>
    obtain ⟨k2, v2⟩ := kv
    by_cases hc : cfg.captured.contains k2 = true
    · have hr : retained ((k2, v2) :: rest) = (k2, v2) :: retained rest := by
        simp only [retained, List.filter_cons, hc, if_true]
      rw [hr, List.map_cons]
      by_cases hk : k2 = k
      · subst hk
        simp only [QJsonObject.value, filterEntry, if_true, hc, Option.map_some']
      · simp only [QJsonObject.value, filterEntry, if_neg hk]
        exact ih
    · have hr : retained ((k2, v2) :: rest) = retained rest := by
        simp only [retained, List.filter_cons, hc]
        rfl
      rw [hr, ih]
      by_cases hk : k2 = k
      · subst hk
        simp only [hc]
        rfl
      · simp only [QJsonObject.value, if_neg hk]

theorem lookup_filter (p : List Step) :
    ∀ v, uniqueKeys v →
      lookup (processNodeRecursively v) p =
        if pathCaptured p then (lookup v p).map processNodeRecursively else none := by
  induction p with
  | nil => intro v _; simp [lookup, pathCaptured]
  | cons step p ih =>
    intro v hv
    cases step with
    | key k =>
      cases v with
      | object o =>
        have hnd : (QJsonObject.keys o).Nodup := hv o (by simp [objectsIn])
        rw [filter_object_eq o hnd]
        simp only [lookup, value_filter, pathCaptured]
        by_cases hc : cfg.captured.contains k = true
        · simp only [hc, if_true, Bool.true_and]
          cases hval : QJsonObject.value o k with
          | none => simp
          | some w =>
            have hw : uniqueKeys w := fun o2 h2 =>
              hv o2 (objectsIn_of_member o (k, w) (value_mem o k w hval) o2 h2)
            simp only [Option.map_some']
            exact ih w hw
        · have hc2 : cfg.captured.contains k = false := by simpa using hc
          simp only [hc2, Bool.false_and]
          rfl
      | array a => rw [filter_array_eq]; simp [lookup]
      | null => simp [processNodeRecursively, lookup]
      | bool b => simp [processNodeRecursively, lookup]
      | double d => simp [processNodeRecursively, lookup]
      | string s => simp [processNodeRecursively, lookup]
    | index i =>
      cases v with
      | array a =>
        rw [filter_array_eq]
        simp only [lookup, pathCaptured, List.getElem?_map]
        cases hval : a[i]? with
        | none => simp
        | some w =>
          have hw : uniqueKeys w := fun o2 h2 =>
            hv o2 (objectsIn_of_item a w (List.getElem?_mem hval) o2 h2)
          simp only [Option.map_some']
          exact ih w hw
      | object o =>
        have hnd : (QJsonObject.keys o).Nodup := hv o (by simp [objectsIn])
        rw [filter_object_eq o hnd]
        simp [lookup]
      | null => simp [processNodeRecursively, lookup]
      | bool b => simp [processNodeRecursively, lookup]
      | double d => simp [processNodeRecursively, lookup]
      | string s => simp [processNodeRecursively, lookup]

theorem filter_fixed (v : QJsonValue) :
    uniqueKeys v → (∀ o ∈ objectsIn v, ∀ k ∈ QJsonObject.keys o, k ∈ cfg.captured) →
      processNodeRecursively v = v := by
  induction v using QJsonValue.induct with
  | hnull => intro _ _; rfl
  | hbool b => intro _ _; rfl
  | hdouble d => intro _ _; rfl
  | hstring s => intro _ _; rfl
  | harray items ih =>
    intro hu hc
    rw [filter_array_eq]
    congr 1
    conv_rhs => rw [← List.map_id items]
    apply List.map_congr_left
    intro v hv
    exact ih v hv (fun o ho => hu o (objectsIn_of_item items v hv o ho))
      (fun o ho => hc o (objectsIn_of_item items v hv o ho))
  | hobject members ih =>
    intro hu hc
    have hnd : (QJsonObject.keys members).Nodup := hu members (by simp [objectsIn])
    have hkeys : ∀ k ∈ QJsonObject.keys members, k ∈ cfg.captured :=
      hc members (by simp [objectsIn])
    have hret : retained members = members := by
      apply List.filter_eq_self.2
      intro kv hkv
      have := hkeys kv.1 (List.mem_map.2 ⟨kv, hkv, rfl⟩)
      simpa using this
    rw [filter_object_eq members hnd, hret]
    congr 1
    conv_rhs => rw [← List.map_id members]
    apply List.map_congr_left
    intro kv hkv
    have := ih kv hkv (fun o ho => hu o (objectsIn_of_member members kv hkv o ho))
      (fun o ho => hc o (objectsIn_of_member members kv hkv o ho))
    simp only [filterEntry, this, id]

theorem mixedTree_uniqueKeys : uniqueKeys mixedTree := by
  intro o ho
  simp only [mixedTree, objectsIn, objectsIn.objectsInMembers, objectsIn.objectsInItems,
    List.append_nil, List.nil_append, List.mem_cons, List.mem_append, List.mem_singleton,
    List.not_mem_nil, or_false, false_or, List.cons_append] at ho
  rcases ho with rfl | rfl | rfl | rfl <;> decide

theorem capturedTree_uniqueKeys : uniqueKeys capturedTree := by
  intro o ho
  simp only [capturedTree, objectsIn, objectsIn.objectsInMembers, objectsIn.objectsInItems,
    List.append_nil, List.nil_append, List.mem_cons, List.mem_append, List.mem_singleton,
    List.not_mem_nil, or_false, false_or, List.cons_append] at ho
  rcases ho with rfl | rfl | rfl | rfl <;> decide

theorem capturedTree_captured :
    ∀ o ∈ objectsIn capturedTree, ∀ k ∈ QJsonObject.keys o, k ∈ cfg.captured := by
  intro o ho
  simp only [capturedTree, objectsIn, objectsIn.objectsInMembers, objectsIn.objectsInItems,
    List.append_nil, List.nil_append, List.mem_cons, List.mem_append, List.mem_singleton,
    List.not_mem_nil, or_false, false_or, List.cons_append] at ho
  rcases ho with rfl | rfl | rfl | rfl <;> decide

/-- C17: for a value `v` (keys unique in every object) and an access path `p`, the lookup of
`p` in `processNodeRecursively v` succeeds exactly when the lookup of `p` in `v` succeeds and
every object key on `p` is captured, and the value found is then `processNodeRecursively` of
the value found in `v`. -/
theorem C17_path_characterisation (v : QJsonValue) (p : List Step) (hv : uniqueKeys v) :
    ((∃ w, lookup (processNodeRecursively v) p = some w) ↔
        ((∃ u, lookup v p = some u) ∧ pathCaptured p = true)) ∧
      ∀ u, lookup v p = some u → pathCaptured p = true →
        lookup (processNodeRecursively v) p = some (processNodeRecursively u) := by
  have h := lookup_filter p v hv
  constructor
  · constructor
    · rintro ⟨w, hw⟩
      rw [h] at hw
      split at hw
      · rename_i hc
        cases hl : lookup v p with
        | none => rw [hl] at hw; cases hw
        | some u => exact ⟨⟨u, rfl⟩, hc⟩
      · cases hw
    · rintro ⟨⟨u, hu⟩, hc⟩
      exact ⟨processNodeRecursively u, by rw [h, hu, if_pos hc]; rfl⟩
  · intro u hu hc
    rw [h, hu, if_pos hc]
    rfl

/-- C17 on the tree `{"rootTopic":{"id":7,"children":[{"title":"u","style":{"title":"v"}}]}}`
and the path `rootTopic`, `children`, 0, `title`, which leads to `"u"` before and after. -/
theorem C17_path_characterisation_witness :
    uniqueKeys mixedTree ∧
      lookup (processNodeRecursively mixedTree)
        [.key "rootTopic", .key "children", .index 0, .key "title"] =
        some (processNodeRecursively (.string "u")) ∧
      ¬ ∃ w, lookup (processNodeRecursively mixedTree)
        [.key "rootTopic", .key "children", .index 0, .key "style", .key "title"] = some w :=
  ⟨mixedTree_uniqueKeys,
    (C17_path_characterisation mixedTree _ mixedTree_uniqueKeys).2 (.string "u") rfl rfl,
    fun h => Bool.noConfusion
      ((C17_path_characterisation mixedTree _ mixedTree_uniqueKeys).1.1 h).2⟩

/-- C18: for a value `v` (keys unique in every object), `processNodeRecursively v = v` if and
only if every key of every object that occurs in `v` is captured; so a tree built from the
four captured keys, arrays and scalars is returned unchanged. -/
theorem C18_fixed_points (v : QJsonValue) (hv : uniqueKeys v) :
    processNodeRecursively v = v ↔
      ∀ o ∈ objectsIn v, ∀ k ∈ QJsonObject.keys o,
        k ∈ ["rootTopic", "attached", "title", "children"] := by
  constructor
  · intro h o ho
    rw [← h] at ho
    exact objectsIn_filter_captured v o ho
  · exact filter_fixed v hv

/-- C18 on the tree `{"rootTopic":{"title":"t","children":{"attached":[{"title":"u"},5,null]}}}`,
which is returned unchanged. -/
theorem C18_fixed_points_witness :
    uniqueKeys capturedTree ∧ processNodeRecursively capturedTree = capturedTree :=
  ⟨capturedTree_uniqueKeys,
    (C18_fixed_points capturedTree capturedTree_uniqueKeys).2 capturedTree_captured⟩

/-! ## Termination of the filter -/

theorem depth_le_depthItems (items : List QJsonValue) (v : QJsonValue) (h : v ∈ items) :
    depth v ≤ depth.depthItems items := by
  induction items with
  | nil => cases h
  | cons x rest ih =>
    simp only [depth.depthItems]
    rcases List.mem_cons.1 h with rfl | h
    · exact Nat.le_max_left _ _
    · exact Nat.le_trans (ih h) (Nat.le_max_right _ _)

theorem depth_le_depthMembers (members : List (String × QJsonValue))
    (kv : String × QJsonValue) (h : kv ∈ members) :
    depth kv.2 ≤ depth.depthMembers members := by
  induction members with
  | nil => cases h
  | cons x rest ih =>
    obtain ⟨k, w⟩ := x
    simp only [depth.depthMembers]
    rcases List.mem_cons.1 h with rfl | h
    · exact Nat.le_max_left _ _
    · exact Nat.le_trans (ih h) (Nat.le_max_right _ _)

theorem arrayLoopWith_eq (call : QJsonValue → Option QJsonValue) (items : List QJsonValue)
    (h : ∀ v ∈ items, call v = some (processNodeRecursively v)) (newArray : QJsonArray) :
    arrayLoopWith call items newArray = some (processArrayLoop items newArray) := by
  induction items generalizing newArray with
  | nil => rfl
  | cons x rest ih =>
    simp only [arrayLoopWith, processArrayLoop, h x (List.mem_cons_self _ _)]
    exact ih (fun v hv => h v (List.mem_cons_of_mem _ hv)) _

theorem objectLoopWith_eq (call : QJsonValue → Option QJsonValue)
    (obj : List (String × QJsonValue))
    (h : ∀ kv ∈ obj, call kv.2 = some (processNodeRecursively kv.2)) (newObj : QJsonObject) :
    objectLoopWith call obj newObj = some (processObjectLoop obj newObj) := by
  induction obj generalizing newObj with
  | nil => rfl
  | cons x rest ih =>
    obtain ⟨k, w⟩ := x
    have hw := h (k, w) (List.mem_cons_self _ _)
    simp only at hw
    simp only [objectLoopWith, processObjectLoop, hw]
    split
    · exact ih (fun kv hkv => h kv (List.mem_cons_of_mem _ hkv)) _
    · exact ih (fun kv hkv => h kv (List.mem_cons_of_mem _ hkv)) _

/-- C14: the filter is total. `processNodeRecursively` is a function defined by structural
recursion on the value, and the recursion of the source, run with a bound `n` on the nested
calls, returns that same value as soon as `n` exceeds the nesting depth of the input; no
variant leads to a failure. -/
theorem C14_total (v : QJsonValue) :
    ∀ n, depth v < n → processNodeBounded n v = some (processNodeRecursively v) := by
  induction v using QJsonValue.induct with
  | hnull => intro n hn; cases n with
    | zero => cases hn
    | succ n => rfl
  | hbool b => intro n hn; cases n with
    | zero => cases hn
    | succ n => rfl
  | hdouble d => intro n hn; cases n with
    | zero => cases hn
    | succ n => rfl
  | hstring s => intro n hn; cases n with
    | zero => cases hn
    | succ n => rfl
  | harray items ih =>
    intro n hn
    cases n with
    | zero => cases hn
    | succ n =>
      simp only [depth] at hn
      have := arrayLoopWith_eq (processNodeBounded n) items (fun v hv =>
        ih v hv n (by have := depth_le_depthItems items v hv; omega)) []
      simp only [processNodeBounded, this, processNodeRecursively]
  | hobject members ih =>
    intro n hn
    cases n with
    | zero => cases hn
    | succ n =>
      simp only [depth] at hn
      have := objectLoopWith_eq (processNodeBounded n) members (fun kv hkv =>
        ih kv hkv n (by have := depth_le_depthMembers members kv hkv; omega)) []
      simp only [processNodeBounded, this, processNodeRecursively]

/-- C14 on the tree `{"rootTopic":{"id":7,"children":[{"title":"u","style":{"title":"v"}}]}}`,
of nesting depth 5: six nested calls are enough. -/
theorem C14_total_witness :
    depth mixedTree < 6 ∧
      processNodeBounded 6 mixedTree = some (processNodeRecursively mixedTree) :=
  ⟨by decide, C14_total mixedTree 6 (by decide)⟩

end XmindParser
